import Mathlib

/-!
# Academic Paper Narrator — verification of the page-processing scheduler
and the audio-timing reconstruction engine

Shallow embedding of the scheduling core of the repository:

* `src/types.ts` — the `NarratedPage` / `AudioSegment` data model;
* `src/hooks/usePageProcessor.ts` — the Page Ledger operations
  (`updatePageStatus`, the `setPages` updaters of `performBatchExtraction`
  and `performBatchSynthesis`), the batch selection functions
  (`findBatchToExtract`, `findBatchToSynth`) and the two worker-pool
  effects;
* `src/services/geminiService.ts` and `src/unnamed/part_004` — the retry
  loops (`retryGenerate`), the per-page synthesis loop (`synthesizeBatch`)
  with its silence-detection timing reconstruction, and the WAV container
  builder (`createWavBlob`);
* `src/App.tsx` — the WAV concatenation in `handleDownloadFull`.

JavaScript numbers used for audio timing are modelled as exact rationals
(`ℚ`); byte buffers as `List Nat` with values `< 256`; JS `Map` as an
association list with insert-or-replace semantics.  Asynchronous external
calls (PDF.js rendering, the Gemini extraction/TTS collaborators) are
modelled by explicit oracle parameters and an explicit outcome datatype
(success / abort / failure), so one invocation of an `async` batch
function becomes one pure state transformation of the Ledger.
-/

namespace Narrator

/-- `NarratedPage.status` from `src/types.ts`. -/
inductive PageStatus where
  | pending
  | analyzing
  | extracted
  | synthesizing
  | ready
  | error
deriving DecidableEq, Repr

/-- `AudioSegment` from `src/types.ts`; JS floating-point seconds are
modelled as exact rationals. -/
structure AudioSegment where
  text : String
  startTime : ℚ
  duration : ℚ
  isSilence : Bool
deriving DecidableEq, Repr

/-- `NarratedPage` from `src/types.ts`.  Optional fields are `Option`s
(absent = `none`), `segments` absent is modelled as the empty list. -/
structure NarratedPage where
  pageNumber : Nat
  originalText : String
  status : PageStatus
  imageUrl : Option String := none
  audioUrl : Option String := none
  segments : List AudioSegment := []
deriving DecidableEq, Repr

/-- `processingMode` prop of `usePageProcessor`. -/
inductive ProcessingMode where
  | audio
  | text
deriving DecidableEq, Repr

/-- The Page Ledger: the `pages` state array of `usePageProcessor`,
indexed by `pageNumber - 1`. -/
abbrev Ledger := List NarratedPage

/-- `updatePageStatus` from `usePageProcessor.ts` (lines 65-71):
`copy[pageNum - 1] = { ...copy[pageNum - 1], status }` guarded by
`if (copy[pageNum - 1])`.  A JS index `pageNum - 1 = -1` (only possible
for `pageNum = 0`) reads `undefined`, so the write is skipped. -/
def updatePageStatus (pages : Ledger) (pageNum : Nat) (st : PageStatus) : Ledger :=
  if pageNum = 0 then pages
  else
    match pages.get? (pageNum - 1) with
    | some p => pages.set (pageNum - 1) { p with status := st }
    | none => pages

/-- The `setPages` updater inside `performBatchExtraction` (lines 91-95)
that caches a freshly rendered page image:
`copy[pageNum - 1] = { ...copy[pageNum - 1], imageUrl: img }`. -/
def setImageUrl (pages : Ledger) (pageNum : Nat) (img : String) : Ledger :=
  if pageNum = 0 then pages
  else
    match pages.get? (pageNum - 1) with
    | some p => pages.set (pageNum - 1) { p with imageUrl := some img }
    | none => pages

/-- JS `pages[i - 1]` for a 1-based page number `i` (`i = 0` reads index
`-1`, which is `undefined`). -/
def pageAt (pages : Ledger) (pageNum : Nat) : Option NarratedPage :=
  if pageNum = 0 then none else pages.get? (pageNum - 1)

/-- JS `Map.prototype.set`: replace the value at an existing key (keys
are unique in a JS `Map`), otherwise append the new entry (insertion
order preserved). -/
def mapSet {α : Type} : List (Nat × α) → Nat → α → List (Nat × α)
  | [], k, v => [(k, v)]
  | e :: rest, k, v => if e.1 = k then (k, v) :: rest else e :: mapSet rest k v

/-- JS `Map.prototype.get` (as an `Option`). -/
def mapGet {α : Type} : List (Nat × α) → Nat → Option α
  | [], _ => none
  | e :: rest, k => if e.1 = k then some e.2 else mapGet rest k

/-- JS `String.prototype.trim`: strip leading and trailing whitespace.
(The source only ever tests trimmed strings for emptiness, i.e.
"is this string whitespace-only?".) -/
def jsTrim (s : String) : String :=
  String.mk (((s.data.dropWhile Char.isWhitespace).reverse.dropWhile
    Char.isWhitespace).reverse)

/-! ## Extraction batches (`performBatchExtraction`, usePageProcessor.ts 73-144) -/

/-- The local, serialized PDF.js primitives used by `performBatchExtraction`:
`extractPageText` (a thrown exception is caught and leaves `rawText = ""`,
so the oracle returns the resulting string directly) and
`renderPageToImage` (`none` = the render threw). -/
structure ExtractEnv where
  rawTextOf : Nat → String
  renderOf : Nat → Option String

/-- Outcome of the external `extractScriptBatch` call as observed by
`performBatchExtraction`: a per-page result map on success; `aborted`
covers both an `AbortError` and the post-await
`abortControllerRef.current.signal.aborted` check; `failure` is any other
exception (`quota` marks a 429). -/
inductive ExtractOutcome where
  | success (results : List (Nat × String))
  | aborted
  | failure (quota : Bool)
deriving DecidableEq, Repr

/-- One step of the serialized preparation loop of `performBatchExtraction`
(lines 82-106).  The accumulator carries the Ledger being mutated, the
`batchPayload` (pageNum, image, rawText) and the `rawTextMap`.  The
`imageUrl` cache check reads the `pages` closure variable, i.e. the Ledger
snapshot from the render that invoked the batch, not the threaded state. -/
def extractionPrepareStep (snapshot : Ledger) (env : ExtractEnv)
    (acc : Ledger × List (Nat × String × String) × List (Nat × String))
    (pageNum : Nat) :
    Ledger × List (Nat × String × String) × List (Nat × String) :=
  let rawText := env.rawTextOf pageNum
  let rawMap := mapSet acc.2.2 pageNum rawText
  match (pageAt snapshot pageNum).bind (fun p => p.imageUrl) with
  | some img => (acc.1, acc.2.1 ++ [(pageNum, img, rawText)], rawMap)
  | none =>
    match env.renderOf pageNum with
    | some img =>
      (setImageUrl acc.1 pageNum img, acc.2.1 ++ [(pageNum, img, rawText)], rawMap)
    | none =>
      -- `Render failed for page`: the page alone becomes `error`
      (updatePageStatus acc.1 pageNum .error, acc.2.1, rawMap)

/-- The whole preparation loop, started on the Ledger state after every
batch page was marked `analyzing`. -/
def extractionPrepare (snapshot : Ledger) (env : ExtractEnv)
    (pageNums : List Nat) (st : Ledger) :
    Ledger × List (Nat × String × String) × List (Nat × String) :=
  pageNums.foldl (extractionPrepareStep snapshot env) (st, [], [])

/-- The `setPages` updater applying a successful extraction result
(lines 115-130): per batch page, only a page still `analyzing` is written;
empty model output (`llmText.trim()` falsy) falls back to the raw PDF.js
text; the next status is `ready` in text mode and `extracted` otherwise. -/
def applyExtractionResults (pages : Ledger) (pageNums : List Nat)
    (resultsMap rawTextMap : List (Nat × String)) (mode : ProcessingMode) : Ledger :=
  pageNums.foldl
    (fun copy pageNum =>
      match pageAt copy pageNum with
      | some pg =>
        if pg.status = .analyzing then
          let llmText := (mapGet resultsMap pageNum).getD ""
          let text := if jsTrim llmText ≠ "" then llmText else (mapGet rawTextMap pageNum).getD ""
          let nextStatus : PageStatus := if mode = .text then .ready else .extracted
          copy.set (pageNum - 1) { pg with originalText := text, status := nextStatus }
        else copy
      | none => copy)
    pages

/-- `performBatchExtraction` (lines 73-144) as one Ledger transformation.
The external call's behaviour is the `outcome` parameter; sorting
`batchPayload` (line 110) only affects the request sent to the external
collaborator, not the Ledger.  On `aborted` the function returns before
the apply step (lines 113, 133-135); on `failure` every batch page is set
to `error` (the 429 advisory only touches `apiError`, not the Ledger). -/
def performBatchExtraction (snapshot : Ledger) (env : ExtractEnv)
    (pageNums : List Nat) (outcome : ExtractOutcome) (mode : ProcessingMode) : Ledger :=
  let st0 := pageNums.foldl (fun st p => updatePageStatus st p .analyzing) snapshot
  let prep := extractionPrepare snapshot env pageNums st0
  if prep.2.1 = [] then prep.1
  else
    match outcome with
    | .aborted => prep.1
    | .success results => applyExtractionResults prep.1 pageNums results prep.2.2 mode
    | .failure _ => pageNums.foldl (fun st p => updatePageStatus st p .error) prep.1

/-! ## Synthesis batches (`performBatchSynthesis`, usePageProcessor.ts 146-191) -/

/-- The per-page payload `synthesizeBatch` returns on success. -/
structure SynthResult where
  audioUrl : String
  segments : List AudioSegment
deriving DecidableEq, Repr

/-- Outcome of the external `synthesizeBatch` call as observed by
`performBatchSynthesis`. -/
inductive SynthOutcome where
  | success (results : List (Nat × SynthResult))
  | aborted
  | failure (quota : Bool)
deriving DecidableEq, Repr

/-- The `setPages` updater applying a successful synthesis result
(lines 158-176): `resultsMap.forEach` writes every target page that
exists (`if (copy[idx])`) — with no status guard — setting `audioUrl`,
`segments` and status `ready`.  `URL.revokeObjectURL` is an external
side effect with no Ledger footprint. -/
def applySynthesisResults (pages : Ledger) (results : List (Nat × SynthResult)) : Ledger :=
  results.foldl
    (fun copy entry =>
      match pageAt copy entry.1 with
      | some pg =>
        copy.set (entry.1 - 1)
          { pg with audioUrl := some entry.2.audioUrl
                    segments := entry.2.segments
                    status := .ready }
      | none => copy)
    pages

/-- `performBatchSynthesis` (lines 146-191) as one Ledger transformation.
In text mode the function returns immediately.  On any non-abort failure
every batch page is set back to `ready` (never `error`), keeping the
extracted text. -/
def performBatchSynthesis (pages : Ledger) (batchPages : List NarratedPage)
    (outcome : SynthOutcome) (mode : ProcessingMode) : Ledger :=
  if mode = .text then pages
  else
    let pageNums := batchPages.map (fun p => p.pageNumber)
    let st0 := pageNums.foldl (fun st p => updatePageStatus st p .synthesizing) pages
    match outcome with
    | .aborted => st0
    | .success results => applySynthesisResults st0 results
    | .failure _ => pageNums.foldl (fun st p => updatePageStatus st p .ready) st0

/-! ## Extraction batch selection (`findBatchToExtract`, usePageProcessor.ts 210-234) -/

/-- The per-page eligibility test of both scan loops:
`pages[i - 1]?.status === 'pending' && !dispatchedPagesRef.current.has(i)`. -/
def eligiblePage (pages : Ledger) (dispatched : List Nat) (i : Nat) : Bool :=
  ((pageAt pages i).any fun p => p.status = .pending) && !(dispatched.contains i)

/-- The inner batch-growing loop (`for (let j = 1; j < BATCH_SIZE_EXTRACTION; j++)`
with `BATCH_SIZE_EXTRACTION = 3`): push `i + j` while it passes `ok`
(bounds check plus eligibility), else break. -/
def extendBatch (ok : Nat → Bool) (i : Nat) (j : Nat) : List Nat :=
  if j < 3 then
    if ok (i + j) then (i + j) :: extendBatch ok i (j + 1) else []
  else []
termination_by 3 - j

/-- Phase 1 of `findBatchToExtract` (lines 211-221): scan
`i = currentPlayingPage .. totalPages`; at the first eligible page return
it together with its grown batch (growth bound: `next <= totalPages`). -/
def scanForwardBatch (pages : Ledger) (dispatched : List Nat) (total : Nat)
    (i : Nat) : List Nat :=
  if i ≤ total then
    if eligiblePage pages dispatched i then
      i :: extendBatch (fun n => decide (n ≤ total) && eligiblePage pages dispatched n) i 1
    else scanForwardBatch pages dispatched total (i + 1)
  else []
termination_by total + 1 - i

/-- Phase 2 of `findBatchToExtract` (lines 222-232): scan
`i = 1 .. currentPlayingPage - 1`; growth bound `next < currentPlayingPage`. -/
def scanBackBatch (pages : Ledger) (dispatched : List Nat) (cur : Nat)
    (i : Nat) : List Nat :=
  if i < cur then
    if eligiblePage pages dispatched i then
      i :: extendBatch (fun n => decide (n < cur) && eligiblePage pages dispatched n) i 1
    else scanBackBatch pages dispatched cur (i + 1)
  else []
termination_by cur - i

/-- `findBatchToExtract` (lines 210-234).  Phase 1 returns a non-empty
batch exactly when it finds an eligible page, so "the outer loop fell
through to phase 2" is `scanForwardBatch … = []`. -/
def findBatchToExtract (pages : Ledger) (dispatched : List Nat)
    (cur total : Nat) : List Nat :=
  let fwd := scanForwardBatch pages dispatched total cur
  if fwd = [] then scanBackBatch pages dispatched cur 1 else fwd

/-- Modelled from the spec (claim C5 wording): "the first run of up to
`BATCH_SIZE` contiguous pages, all `pending` and not in the Dispatch Set,
found by scanning from the currently-viewed page forward to the last
page" — the first eligible page in `[cur, total]` taken with the longest
eligible prefix of `[i, i+1, i+2]` staying within `[cur, total]`. -/
def specForwardRun (pages : Ledger) (dispatched : List Nat)
    (cur total : Nat) : Option (List Nat) :=
  ((List.range' cur (total + 1 - cur)).find? (eligiblePage pages dispatched)).map
    fun i =>
      (List.range' i 3).takeWhile fun n =>
        decide (n ≤ total) && eligiblePage pages dispatched n

/-- Modelled from the spec (claim C5 wording): "only if that scan finds
none, by scanning from page 1 up to but excluding the currently-viewed
page", with the run also confined below the currently-viewed page. -/
def specBackRun (pages : Ledger) (dispatched : List Nat) (cur : Nat) :
    Option (List Nat) :=
  ((List.range' 1 (cur - 1)).find? (eligiblePage pages dispatched)).map
    fun i =>
      (List.range' i 3).takeWhile fun n =>
        decide (n < cur) && eligiblePage pages dispatched n

/-- Modelled from the spec (claim C5 wording): the full two-phase
selection as the claim describes it. -/
def findBatchSpec (pages : Ledger) (dispatched : List Nat)
    (cur total : Nat) : List Nat :=
  match specForwardRun pages dispatched cur total with
  | some run => run
  | none => (specBackRun pages dispatched cur).getD []

/-! ## Synthesis batch selection (`findBatchToSynth`, usePageProcessor.ts 256-290) -/

/-- The `startIdx` search loop of `findBatchToSynth`, with the remaining
iteration count (`total - i`, the number of loop steps `for (i; i <
totalPages; i++)` still has) made an explicit structural argument. -/
def searchExtractedGo (pages : Ledger) : Nat → Nat → Option Nat
  | 0, _ => none
  | fuel + 1, i =>
    if (pages.get? i).any (fun p => p.status = .extracted) then some i
    else searchExtractedGo pages fuel (i + 1)

/-- The `startIdx` search loop: first index `i ∈ [lo, total)` with
`pages[i].status === 'extracted'`.  (The source indexes `pages[i]`
without `?.`; the model reads `get?`, which agrees whenever
`totalPages ≤ pages.length`.) -/
def searchExtracted (pages : Ledger) (total i : Nat) : Option Nat :=
  searchExtractedGo pages (total - i) i

/-- Lines 257-267: search from `currentPlayingPage - 1` forward, wrapping
to index 0 when nothing is found. -/
def findStartIdx (pages : Ledger) (cur total : Nat) : Option Nat :=
  match searchExtracted pages total (cur - 1) with
  | some i => some i
  | none => searchExtracted pages total 0

/-- The greedy accumulation loop (lines 269-288) with
`MAX_TTS_CHARS_PER_BATCH = 4500`, the remaining iteration count
(`total - i`) made an explicit structural argument: always take the first
`extracted` page (breaking immediately if it alone reaches the budget),
then keep adding consecutive `extracted` pages while the running total
stays within the budget. -/
def greedyCollectGo (pages : Ledger) :
    Nat → Nat → List NarratedPage → Nat → List NarratedPage
  | 0, _, batch, _ => batch
  | fuel + 1, i, batch, chars =>
    match pages.get? i with
    | some p =>
      if p.status = .extracted then
        -- `len` = `p.originalText.length` (the source's local `len`), inlined
        if batch = [] then
          if chars + p.originalText.length ≥ 4500 then batch ++ [p]
          else greedyCollectGo pages fuel (i + 1) (batch ++ [p])
            (chars + p.originalText.length)
        else
          if chars + p.originalText.length ≤ 4500 then
            greedyCollectGo pages fuel (i + 1) (batch ++ [p])
              (chars + p.originalText.length)
          else batch
      else batch
    | none => batch

/-- The greedy loop from index `i` with bound `total`. -/
def greedyCollect (pages : Ledger) (total i : Nat)
    (batch : List NarratedPage) (chars : Nat) : List NarratedPage :=
  greedyCollectGo pages (total - i) i batch chars

/-- `findBatchToSynth` (lines 256-290): `none` is the JS `null` return. -/
def findBatchToSynth (pages : Ledger) (cur total : Nat) :
    Option (List NarratedPage) :=
  match findStartIdx pages cur total with
  | none => none
  | some s => some (greedyCollect pages total s [] 0)

/-! ## The Extraction Pool effect as a state machine (usePageProcessor.ts 205-249)

Single-threaded cooperative concurrency: every synchronous block of the
effect is one atomic step; the `await`s inside `performBatchExtraction`
let steps interleave in any order.  The machine state carries the `pages`
state, `dispatchedPagesRef`, `activeExtractionWorkers` and the multiset
of batches currently in flight. -/

/-- `Set.prototype.add`. -/
def setAdd (s : List Nat) (x : Nat) : List Nat :=
  if x ∈ s then s else s ++ [x]

/-- `Set.prototype.delete`. -/
def setDelete (s : List Nat) (x : Nat) : List Nat :=
  s.filter (fun y => y ≠ x)

structure SchedulerState where
  pages : Ledger
  dispatched : List Nat
  activeExtractionWorkers : Nat
  inFlight : List (List Nat)
deriving DecidableEq, Repr

/-- Line 240: `batch.forEach(p => dispatchedPagesRef.current.add(p))` —
the batch's claim, made synchronously at selection time. -/
def claimDispatch (s : SchedulerState) (batch : List Nat) : SchedulerState :=
  { s with dispatched := batch.foldl setAdd s.dispatched }

/-- Lines 241-242: `setActiveExtractionWorkers(prev => prev + 1)` and the
start of `performBatchExtraction(batch)` (recorded as in flight). -/
def startExtractionWorker (s : SchedulerState) (batch : List Nat) : SchedulerState :=
  { s with activeExtractionWorkers := s.activeExtractionWorkers + 1
           inFlight := s.inFlight ++ [batch] }

/-- The synchronous tail of the Extraction Pool effect once a non-empty
batch is selected (lines 240-242), in source order: claim the pages in the
Dispatch Set first, then increment the worker counter. -/
def extractionEffectBody (s : SchedulerState) (batch : List Nat) : SchedulerState :=
  startExtractionWorker (claimDispatch s batch) batch

/-- Batch completion: the Ledger effect of `performBatchExtraction`
followed by the `finally` block (lines 243-245) releasing the claim and
the worker slot.  (The `catch` block's own `dispatchedPagesRef.delete`
is subsumed: it removes the same pages the `finally` removes, within the
same completion step.) -/
def completeExtractionBatch (s : SchedulerState) (batch : List Nat)
    (env : ExtractEnv) (outcome : ExtractOutcome) (mode : ProcessingMode) :
    SchedulerState :=
  { pages := performBatchExtraction s.pages env batch outcome mode
    dispatched := batch.foldl setDelete s.dispatched
    activeExtractionWorkers := s.activeExtractionWorkers - 1
    inFlight := s.inFlight.erase batch }

/-- One atomic step of the cooperative scheduler.  `schedule` is one run
of the Extraction Pool effect that found work (any current page /
document length, since the user may navigate at any time); `complete`
resolves one in-flight batch with an arbitrary environment and outcome;
`external` is any other Ledger mutation (synthesis pool writes, page-list
re-initialisation, …), which touches none of the extraction-pool
bookkeeping. -/
inductive SchedStep : SchedulerState → SchedulerState → Prop where
  | schedule (s : SchedulerState) (cur total : Nat) (batch : List Nat)
      (hw : s.activeExtractionWorkers < 3)
      (hb : findBatchToExtract s.pages s.dispatched cur total = batch)
      (hne : batch ≠ []) :
      SchedStep s (extractionEffectBody s batch)
  | complete (s : SchedulerState) (batch : List Nat)
      (env : ExtractEnv) (outcome : ExtractOutcome) (mode : ProcessingMode)
      (hin : batch ∈ s.inFlight) :
      SchedStep s (completeExtractionBatch s batch env outcome mode)
  | external (s : SchedulerState) (pages' : Ledger) :
      SchedStep s { s with pages := pages' }

/-- The initial state of a freshly loaded document (lines 53-63):
`totalPages` pending pages, an empty Dispatch Set, no workers. -/
def initialState (total : Nat) : SchedulerState :=
  { pages := (List.range total).map fun i =>
      { pageNumber := i + 1, originalText := "", status := .pending }
    dispatched := []
    activeExtractionWorkers := 0
    inFlight := [] }

/-- States the scheduler can reach from a freshly loaded document. -/
inductive SchedReachable (total : Nat) : SchedulerState → Prop where
  | init : SchedReachable total (initialState total)
  | step {s s' : SchedulerState} :
      SchedReachable total s → SchedStep s s' → SchedReachable total s'

/-- Dispatch Set exclusivity: every in-flight batch repeats no page, all
its pages are claimed in the Dispatch Set, and no page belongs to two
in-flight batches. -/
def DispatchInv (s : SchedulerState) : Prop :=
  (∀ b ∈ s.inFlight, b.Nodup ∧ ∀ p ∈ b, p ∈ s.dispatched) ∧
  s.inFlight.Pairwise (fun b₁ b₂ => ∀ p ∈ b₁, p ∉ b₂)

/-! ## Audio-Timing Reconstruction Engine (src/unnamed/part_004, `synthesizeBatch` 325-413)

The decoded TTS audio is 24 kHz mono 16-bit PCM; the model works on the
sample values directly (`List Int`), so the byte length of the source
buffer is twice the sample count.  JS floating-point seconds become exact
rationals. -/

/-- The silence scan (lines 340-355): walk the samples with the running
index `i` and the current silence-run length; on a loud sample ending a
run longer than `minSilenceSamples = 24000 * 250 / 1000 = 6000`, record
`i / 24000` (the end of the gap). -/
def pauseScan : List Int → Nat → Nat → List ℚ
  | [], _, _ => []
  | s :: rest, i, len =>
    if s.natAbs < 50 then pauseScan rest (i + 1) (len + 1)
    else
      if len > 6000 then ((i : ℚ) / 24000) :: pauseScan rest (i + 1) 0
      else pauseScan rest (i + 1) 0

/-- `pauseTimestamps` for a whole sample stream. -/
def detectPauses (samples : List Int) : List ℚ :=
  pauseScan samples 0 0

/-- Line 323: `duration = pcmData.length / (24000 * 2)` — sample count
over the sample rate. -/
def totalDuration (samples : List Int) : ℚ :=
  (samples.length : ℚ) / 24000

/-- An entry of `sentenceBlocks` (lines 358-377). -/
structure SentenceBlock where
  text : String
  startTime : ℚ
  duration : ℚ
deriving DecidableEq, Repr

/-- Line 363: `pauseTimestamps[i] || duration` — JS `||` falls through on
`undefined` and on `0`. -/
def nextAnchorVal (pauses : List ℚ) (dur : ℚ) (i : Nat) : ℚ :=
  match pauses.get? i with
  | some t => if t = 0 then dur else t
  | none => dur

/-- The sentence/boundary reconciliation loop (lines 361-377): the i-th
sentence is anchored at the previous boundary; its raw span runs to the
i-th boundary (falling back to the page end); a non-positive final span
is recomputed from the page end; every span is clamped below at
`Math.max(·, 0.1)`. -/
def buildBlocksAux (pauses : List ℚ) (dur : ℚ) :
    List String → Nat → ℚ → List SentenceBlock
  | [], _, _ => []
  | s :: rest, i, anchor =>
    let nextAnchor := nextAnchorVal pauses dur i
    let sDur0 := nextAnchor - anchor
    let sDur := if sDur0 ≤ 0 ∧ rest = [] then dur - anchor else sDur0
    { text := s, startTime := anchor, duration := max sDur (1/10) } ::
      buildBlocksAux pauses dur rest (i + 1) nextAnchor

/-- `sentenceBlocks` for a sentence list. -/
def buildBlocks (sentences : List String) (pauses : List ℚ) (dur : ℚ) :
    List SentenceBlock :=
  buildBlocksAux pauses dur sentences 0 0

/-- `block.text.split(/(\s+)/).filter(t => t.length > 0)` (line 384):
maximal runs of whitespace / non-whitespace characters.  (The JS split
also yields empty strings at the edges, which the `filter` removes; the
run decomposition never produces them.)  The fuel argument — the length
of the remaining character list, which each maximal run strictly
decreases — makes the recursion structural. -/
def splitRunsAux : Nat → List Char → List String
  | 0, _ => []
  | _, [] => []
  | fuel + 1, c :: rest =>
    String.mk (c :: rest.takeWhile (fun d => d.isWhitespace = c.isWhitespace)) ::
      splitRunsAux fuel (rest.dropWhile (fun d => d.isWhitespace = c.isWhitespace))

/-- The token split of one sentence block. -/
def splitTokens (s : String) : List String :=
  splitRunsAux s.data.length s.data

/-- An entry of `tokensWithWeight` (lines 387-397). -/
structure TokenW where
  text : String
  weight : Nat
  isSilence : Bool
deriving DecidableEq, Repr

/-- The synthetic weight of a non-silence token (lines 391-394):
character length, `+3` if it contains a comma, `+5` for a period, `+4`
for a colon or semicolon. -/
def tokenWeight (t : String) : Nat :=
  t.length + (if t.data.contains ',' then 3 else 0) + (if t.data.contains '.' then 5 else 0)
    + (if t.data.contains ':' || t.data.contains ';' then 4 else 0)

/-- `tokensWithWeight` (lines 387-397): whitespace-only tokens
(`!t.trim()`) get weight 0 and `isSilence = true`. -/
def tokensWithWeight (blockText : String) : List TokenW :=
  (splitTokens blockText).map fun t =>
    if jsTrim t = "" then ⟨t, 0, true⟩ else ⟨t, tokenWeight t, false⟩

/-- `totalWeight` (line 399). -/
def sumWeights (toks : List TokenW) : Nat :=
  toks.foldl (fun a t => a + t.weight) 0

/-- The intra-sentence distribution loop (lines 402-412): each token's
duration is its weight's share of the block duration (0 for silence);
`intraTime` advances by each emitted duration. -/
def distributeTokens (total blockDur : ℚ) :
    List TokenW → ℚ → List AudioSegment
  | [], _ => []
  | t :: rest, intra =>
    let d := if t.isSilence then 0 else ((t.weight : ℚ) / total) * blockDur
    { text := t.text, startTime := intra, duration := d, isSilence := t.isSilence } ::
      distributeTokens total blockDur rest (intra + d)

/-- The segments one sentence block contributes to `pageSegments`. -/
def blockSegments (b : SentenceBlock) : List AudioSegment :=
  let toks := tokensWithWeight b.text
  distributeTokens (sumWeights toks : ℚ) b.duration toks b.startTime

/-- The whole Audio-Timing Reconstruction Engine for one page
(lines 357-413): reconcile the sentence list with the detected silence
boundaries, then distribute tokens inside each sentence span.  The
sentence list is the filtered output of the sentence-splitting regex on
the page text (line 327-328), taken here as an input. -/
def reconstructPage (sentences : List String) (samples : List Int) :
    List AudioSegment :=
  (buildBlocks sentences (detectPauses samples) (totalDuration samples)).flatMap
    blockSegments

/-- Sum of the durations of the non-silence segments of a page. -/
def nonSilenceSum (segs : List AudioSegment) : ℚ :=
  ((segs.filter fun s => s.isSilence = false).map fun s => s.duration).sum

/-! ## WAV container building and concatenation (geminiService.ts 291-309, App.tsx 427-457) -/

/-- `DataView.setUint32(_, n, true)`: the four little-endian bytes of
`n mod 2^32`. -/
def u32le (n : Nat) : List Nat :=
  [n % 256, n / 256 % 256, n / 65536 % 256, n / 16777216 % 256]

/-- `DataView.setUint16(_, n, true)`. -/
def u16le (n : Nat) : List Nat :=
  [n % 256, n / 256 % 256]

/-- `createWavBlob` (geminiService.ts 291-309) as a byte list: the
44-byte RIFF/WAVE header (RIFF size `36 + dataLen` at offset 4, mono,
16-bit, `data` length at offset 40) followed by the PCM bytes. -/
def createWavBytes (pcm : List Nat) (sampleRate : Nat) : List Nat :=
  [82, 73, 70, 70] ++ u32le (36 + pcm.length) ++
  [87, 65, 86, 69] ++ [102, 109, 116, 32] ++
  u32le 16 ++ u16le 1 ++ u16le 1 ++ u32le sampleRate ++
  u32le (sampleRate * 2) ++ u16le 2 ++ u16le 16 ++
  [100, 97, 116, 97] ++ u32le (List.length pcm) ++ pcm

/-- Overwrite four bytes at `offset` with the little-endian encoding of
`n` (a `DataView.setUint32` on an existing buffer). -/
def writeU32At (bytes : List Nat) (offset n : Nat) : List Nat :=
  bytes.take offset ++ u32le n ++ bytes.drop (offset + 4)

/-- The WAV concatenation core of `handleDownloadFull` (App.tsx 427-457)
for two containers: strip each 44-byte header, keep the first container's
header, rewrite the RIFF-size field (offset 4) to `36 + totalData` and
the data-length field (offset 40) to `totalData`, then append the data
bytes in order.  Faithful for containers of at least 44 bytes (every
`createWavBlob` output). -/
def concatWav (a b : List Nat) : List Nat :=
  let d1 := a.drop 44
  let d2 := b.drop 44
  let total := d1.length + d2.length
  writeU32At (writeU32At (a.take 44 ++ d1 ++ d2) 4 (36 + total)) 40 total

/-! ## Retry loops against the external collaborators (C9) -/

/-- One response of `ai.models.generateContent`: a text, or a thrown
error carrying an HTTP status. -/
inductive CallResult where
  | ok (text : String)
  | err (status : Nat)
deriving DecidableEq, Repr

/-- Observable state of a retry loop after finitely many iterations. -/
inductive RetryOutcome where
  | done (text : String)
  | thrown (status : Nat)
  | running (attempt : Nat)
deriving DecidableEq, Repr

/-- One iteration of `retryGenerate` in `src/services/geminiService.ts`
(lines 193-209): a 429 sleeps and loops — the attempt counter is not
incremented and no ceiling is checked; any other error is retried at most
`retries` times. -/
def retryGenerateStep (retries attempt : Nat) (r : CallResult) : RetryOutcome :=
  match r with
  | .ok s => .done s
  | .err st =>
    if st = 429 then .running attempt
    else if attempt ≥ retries then .thrown st
    else .running (attempt + 1)

/-- One iteration of `retryGenerate` in `src/unnamed/part_004`
(lines 278-299): a 429 is retried at most `retries * 2` times
("Allow more retries for 429s but don't loop forever"), any other error
at most `retries` times. -/
def retryGenerateStepP4 (retries attempt : Nat) (r : CallResult) : RetryOutcome :=
  match r with
  | .ok s => .done s
  | .err st =>
    if st = 429 then
      if attempt ≥ retries * 2 then .thrown st else .running (attempt + 1)
    else if attempt ≥ retries then .thrown st else .running (attempt + 1)

/-- Drive a retry loop for `fuel` iterations against a response sequence
(`responses k` is what the k-th call returns); `running` after `fuel`
iterations means the loop has not terminated yet. -/
def retryRun (step : Nat → CallResult → RetryOutcome)
    (responses : Nat → CallResult) : Nat → Nat → Nat → RetryOutcome
  | 0, _, attempt => .running attempt
  | fuel + 1, k, attempt =>
    match step attempt (responses k) with
    | .running a => retryRun step responses fuel (k + 1) a
    | out => out

/-! ## `synthesizeBatch`'s blank-page guard (part_004 309-313, geminiService.ts 230-234) -/

/-- The per-page loop of `synthesizeBatch`: a page whose text is blank
(`!page.text.trim()`) is answered with an empty audio URL and an empty
segment list and skipped (`continue`) before any TTS work; a non-blank
page goes through TTS synthesis and timing reconstruction — abstracted
here into the `synthPage` oracle (an external `ttsScheduler` round trip
plus `reconstructPage` plus `createWavBlob`/`URL.createObjectURL`) —
while the request log records that TTS work was dispatched for it. -/
def synthesizeBatchModel (synthPage : Nat → String → SynthResult)
    (pages : List (Nat × String)) :
    List (Nat × SynthResult) × List (Nat × String) :=
  pages.foldl
    (fun acc pg =>
      if jsTrim pg.2 = "" then (mapSet acc.1 pg.1 ⟨"", []⟩, acc.2)
      else (mapSet acc.1 pg.1 (synthPage pg.1 pg.2), acc.2 ++ [(pg.1, pg.2)]))
    ([], [])

/-! # Helper lemmas -/

theorem get?_some_lt {α : Type} {l : List α} {i : Nat} {a : α}
    (h : l.get? i = some a) : i < l.length := by
  by_contra hc
  rw [List.get?_eq_none.2 (by omega)] at h
  exact Option.noConfusion h

theorem mapGet_mapSet_self {α : Type} (m : List (Nat × α)) (k : Nat) (v : α) :
    mapGet (mapSet m k v) k = some v := by
  induction m with
  | nil => simp [mapSet, mapGet]
  | cons e rest ih =>
    by_cases h : e.1 = k
    · simp [mapSet, mapGet, h]
    · simp [mapSet, mapGet, h, ih]

theorem mapGet_mapSet_ne {α : Type} (m : List (Nat × α)) (k j : Nat) (v : α)
    (h : k ≠ j) : mapGet (mapSet m k v) j = mapGet m j := by
  induction m with
  | nil => simp [mapSet, mapGet, h]
  | cons e rest ih =>
    by_cases he : e.1 = k
    · simp [mapSet, mapGet, he, h]
    · simp only [mapSet, he, if_false, mapGet, ih]

theorem updatePageStatus_length (pages : Ledger) (n : Nat) (st : PageStatus) :
    (updatePageStatus pages n st).length = pages.length := by
  unfold updatePageStatus
  split
  · rfl
  · split
    · simp
    · rfl

theorem setImageUrl_length (pages : Ledger) (n : Nat) (img : String) :
    (setImageUrl pages n img).length = pages.length := by
  unfold setImageUrl
  split
  · rfl
  · split
    · simp
    · rfl

/-- A status write either leaves an index unchanged or replaces just the
status field of the entry there. -/
theorem updatePageStatus_get?_cases (pages : Ledger) (n : Nat) (st : PageStatus)
    (idx : Nat) :
    (updatePageStatus pages n st).get? idx = pages.get? idx ∨
    ∃ p, pages.get? idx = some p ∧
      (updatePageStatus pages n st).get? idx = some { p with status := st } := by
  unfold updatePageStatus
  split
  · exact Or.inl rfl
  next hn =>
    split
    next p hp =>
      by_cases hidx : idx = n - 1
      · subst hidx
        exact Or.inr ⟨p, hp, List.get?_set_eq_of_lt _ (get?_some_lt hp)⟩
      · exact Or.inl (List.get?_set_ne _ _ (fun h => hidx h.symm))
    · exact Or.inl rfl

/-- The status write at the page's own index. -/
theorem updatePageStatus_get?_self (pages : Ledger) (n : Nat) (st : PageStatus)
    (p : NarratedPage) (hn : n ≠ 0) (hp : pages.get? (n - 1) = some p) :
    (updatePageStatus pages n st).get? (n - 1) = some { p with status := st } := by
  unfold updatePageStatus
  rw [if_neg hn, hp]
  exact List.get?_set_eq_of_lt _ (get?_some_lt hp)

/-- A status write does not touch other indexes. -/
theorem updatePageStatus_get?_ne (pages : Ledger) (n : Nat) (st : PageStatus)
    (idx : Nat) (h : idx ≠ n - 1) :
    (updatePageStatus pages n st).get? idx = pages.get? idx := by
  unfold updatePageStatus
  split
  · rfl
  · split
    · exact List.get?_set_ne _ _ (fun hh => h hh.symm)
    · rfl

theorem setImageUrl_get?_cases (pages : Ledger) (n : Nat) (img : String)
    (idx : Nat) :
    (setImageUrl pages n img).get? idx = pages.get? idx ∨
    (n ≠ 0 ∧ idx = n - 1 ∧ ∃ p, pages.get? idx = some p ∧
      (setImageUrl pages n img).get? idx = some { p with imageUrl := some img }) := by
  unfold setImageUrl
  split
  · exact Or.inl rfl
  next hn =>
    split
    next p hp =>
      by_cases hidx : idx = n - 1
      · subst hidx
        exact Or.inr ⟨hn, rfl, p, hp, List.get?_set_eq_of_lt _ (get?_some_lt hp)⟩
      · exact Or.inl (List.get?_set_ne _ _ (fun h => hidx h.symm))
    · exact Or.inl rfl

/-- A fold of status writes, entrywise: each index is unchanged or has
only its status replaced by `st`. -/
theorem foldl_updatePageStatus_get?_cases (l : List Nat) (st : PageStatus)
    (pages : Ledger) (idx : Nat) :
    (l.foldl (fun s p => updatePageStatus s p st) pages).get? idx = pages.get? idx ∨
    ∃ p, pages.get? idx = some p ∧
      (l.foldl (fun s p => updatePageStatus s p st) pages).get? idx =
        some { p with status := st } := by
  induction l generalizing pages with
  | nil => exact Or.inl rfl
  | cons h t ih =>
    simp only [List.foldl_cons]
    rcases ih (updatePageStatus pages h st) with h1 | ⟨p, hp, hres⟩
    · rcases updatePageStatus_get?_cases pages h st idx with h2 | ⟨p, hp, h2⟩
      · exact Or.inl (h1.trans h2)
      · exact Or.inr ⟨p, hp, h1.trans h2⟩
    · rcases updatePageStatus_get?_cases pages h st idx with h2 | ⟨q, hq, h2⟩
      · exact Or.inr ⟨p, by rw [← h2]; exact hp, hres⟩
      · rw [hp] at h2
        injection h2 with h3
        subst h3
        exact Or.inr ⟨q, hq, hres⟩

/-- A fold of status writes sets the status of every listed page that
exists in the Ledger. -/
theorem foldl_updatePageStatus_mem :
    ∀ (l : List Nat) (st : PageStatus) (pages : Ledger) (p : Nat),
      p ∈ l → p ≠ 0 → ∀ q, pages.get? (p - 1) = some q →
      ∃ r, (l.foldl (fun s n => updatePageStatus s n st) pages).get? (p - 1) =
            some r ∧ r.status = st := by
  intro l
  induction l with
  | nil => intro st pages p hp; cases hp
  | cons h t ih =>
    intro st pages p hp hp0 q hq
    simp only [List.foldl_cons]
    rcases List.mem_cons.1 hp with rfl | hmem
    · have h1 := updatePageStatus_get?_self pages p st q hp0 hq
      rcases foldl_updatePageStatus_get?_cases t st (updatePageStatus pages p st)
          (p - 1) with h2 | ⟨r, _, h2⟩
      · exact ⟨{ q with status := st }, h2.trans h1, rfl⟩
      · exact ⟨{ r with status := st }, h2, rfl⟩
    · rcases updatePageStatus_get?_cases pages h st (p - 1) with h2 | ⟨r, hr, h2⟩
      · exact ih st _ p hmem hp0 q (by rw [h2]; exact hq)
      · rw [hq] at hr
        injection hr with hr'
        subst hr'
        exact ih st _ p hmem hp0 _ h2

/-! ## C3 — synthesis failure restores `ready` and keeps the text -/

/-- C3: within one run of `performBatchSynthesis` that ends in a
non-cancellation failure (quota or other), every batch page present in
the Ledger ends with status `ready` — not `error` — and its
`originalText` is exactly what it was before the batch. -/
theorem synthesis_failure_keeps_text
    (pages : Ledger) (batchPages : List NarratedPage) (quota : Bool)
    (pg : NarratedPage) (hpg : pg ∈ batchPages) (h0 : pg.pageNumber ≠ 0)
    (b : NarratedPage) (hb : pages.get? (pg.pageNumber - 1) = some b) :
    ∃ a, (performBatchSynthesis pages batchPages (.failure quota) .audio).get?
          (pg.pageNumber - 1) = some a ∧
        a.status = .ready ∧ a.originalText = b.originalText := by
  have hmode : (ProcessingMode.audio = ProcessingMode.text) = False := by
    simp
  unfold performBatchSynthesis
  rw [if_neg (by simp)]
  set pageNums := batchPages.map (fun p => p.pageNumber) with hnums
  set st0 := pageNums.foldl (fun st p => updatePageStatus st p .synthesizing) pages
    with hst0
  have hpn : pg.pageNumber ∈ pageNums := by
    rw [hnums]; exact List.mem_map_of_mem _ hpg
  -- the entry survives the `synthesizing` fold with its text intact
  have hmid : ∃ b', st0.get? (pg.pageNumber - 1) = some b' ∧
      b'.originalText = b.originalText := by
    rcases foldl_updatePageStatus_get?_cases pageNums .synthesizing pages
        (pg.pageNumber - 1) with h1 | ⟨x, hx, h1⟩
    · exact ⟨b, by rw [hst0, h1]; exact hb, rfl⟩
    · rw [hb] at hx
      injection hx with hx'
      subst hx'
      exact ⟨{ b with status := .synthesizing }, by rw [hst0]; exact h1, rfl⟩
  obtain ⟨b', hb', hbtext⟩ := hmid
  -- the `ready` fold then both sets the status and keeps the text
  obtain ⟨r, hr, hrst⟩ :=
    foldl_updatePageStatus_mem pageNums .ready st0 pg.pageNumber hpn h0 b' hb'
  rcases foldl_updatePageStatus_get?_cases pageNums .ready st0 (pg.pageNumber - 1)
      with h2 | ⟨x, hx, h2⟩
  · rw [hb'] at h2
    rw [h2] at hr
    injection hr with hr'
    rw [← hr'] at hrst
    exact ⟨b', h2, hrst, hbtext⟩
  · rw [hb'] at hx
    injection hx with hx'
    subst hx'
    exact ⟨_, h2, rfl, hbtext⟩

/-- C3 witness at a concrete one-page batch. -/
theorem synthesis_failure_keeps_text_witness :
    ∃ a, (performBatchSynthesis
            [{ pageNumber := 1, originalText := "hello", status := .synthesizing }]
            [{ pageNumber := 1, originalText := "hello", status := .synthesizing }]
            (.failure true) .audio).get? 0 = some a ∧
        a.status = .ready ∧ a.originalText = "hello" := by
  obtain ⟨a, ha, hst, htext⟩ := synthesis_failure_keeps_text
    [{ pageNumber := 1, originalText := "hello", status := .synthesizing }]
    [{ pageNumber := 1, originalText := "hello", status := .synthesizing }]
    true
    { pageNumber := 1, originalText := "hello", status := .synthesizing }
    (by simp) (by simp) _ rfl
  exact ⟨a, ha, hst, htext⟩

/-! ## C1 — cancellation discards the result but not the pre-call writes -/

/-- What survives of the pre-batch Ledger after an aborted extraction
batch: lengths agree; per page, the extracted text, audio and segments
are untouched; the status is either unchanged or one of the two values
written before the external call (`analyzing`, or `error` for pages whose
render failed); and a page image can only have been filled in where there
was none before. -/
def ExtractPreInv (snapshot st : Ledger) : Prop :=
  st.length = snapshot.length ∧
  ∀ idx b a, snapshot.get? idx = some b → st.get? idx = some a →
    a.originalText = b.originalText ∧ a.audioUrl = b.audioUrl ∧
    a.segments = b.segments ∧
    (a.status = b.status ∨ a.status = .analyzing ∨ a.status = .error) ∧
    (a.imageUrl = b.imageUrl ∨ b.imageUrl = none)

theorem extractPreInv_refl (s : Ledger) : ExtractPreInv s s := by
  refine ⟨rfl, fun idx b a hb ha => ?_⟩
  rw [hb] at ha
  injection ha with h
  subst h
  exact ⟨rfl, rfl, rfl, Or.inl rfl, Or.inl rfl⟩

theorem extractPreInv_updateStatus (snapshot st : Ledger) (p : Nat)
    (ns : PageStatus) (hns : ns = .analyzing ∨ ns = .error)
    (h : ExtractPreInv snapshot st) :
    ExtractPreInv snapshot (updatePageStatus st p ns) := by
  obtain ⟨hlen, hinv⟩ := h
  refine ⟨(updatePageStatus_length st p ns).trans hlen, fun idx b a hb ha => ?_⟩
  rcases updatePageStatus_get?_cases st p ns idx with hc | ⟨q, hq, hc⟩
  · exact hinv idx b a hb (by rw [← hc]; exact ha)
  · rw [hc] at ha
    injection ha with ha'
    subst ha'
    obtain ⟨h1, h2, h3, _, h5⟩ := hinv idx b q hb hq
    rcases hns with rfl | rfl
    · exact ⟨h1, h2, h3, Or.inr (Or.inl rfl), h5⟩
    · exact ⟨h1, h2, h3, Or.inr (Or.inr rfl), h5⟩

theorem extractPreInv_foldStatus (l : List Nat) (snapshot st : Ledger)
    (ns : PageStatus) (hns : ns = .analyzing ∨ ns = .error)
    (h : ExtractPreInv snapshot st) :
    ExtractPreInv snapshot (l.foldl (fun s p => updatePageStatus s p ns) st) := by
  induction l generalizing st with
  | nil => exact h
  | cons hd tl ih =>
    exact ih _ (extractPreInv_updateStatus snapshot st hd ns hns h)

theorem extractPreInv_setImageUrl (snapshot st : Ledger) (p : Nat) (img : String)
    (hnone : (pageAt snapshot p).bind (fun q => q.imageUrl) = none)
    (h : ExtractPreInv snapshot st) :
    ExtractPreInv snapshot (setImageUrl st p img) := by
  obtain ⟨hlen, hinv⟩ := h
  refine ⟨(setImageUrl_length st p img).trans hlen, fun idx b a hb ha => ?_⟩
  rcases setImageUrl_get?_cases st p img idx with hc | ⟨hp0, hidx, q, hq, hc⟩
  · exact hinv idx b a hb (by rw [← hc]; exact ha)
  · rw [hc] at ha
    injection ha with ha'
    subst ha'
    obtain ⟨h1, h2, h3, h4, _⟩ := hinv idx b q hb hq
    refine ⟨h1, h2, h3, h4, Or.inr ?_⟩
    -- the render path is only taken when the snapshot has no cached image
    subst hidx
    unfold pageAt at hnone
    rw [if_neg hp0, hb] at hnone
    exact hnone

theorem extractPreInv_prepare (pageNums : List Nat) (snapshot : Ledger)
    (env : ExtractEnv) (st : Ledger)
    (payload : List (Nat × String × String)) (raw : List (Nat × String))
    (h : ExtractPreInv snapshot st) :
    ExtractPreInv snapshot
      (pageNums.foldl (extractionPrepareStep snapshot env) (st, payload, raw)).1 := by
  induction pageNums generalizing st payload raw with
  | nil => exact h
  | cons hd tl ih =>
    simp only [List.foldl_cons]
    unfold extractionPrepareStep
    rcases hb : (pageAt snapshot hd).bind (fun q => q.imageUrl) with _ | img
    · rcases hr : env.renderOf hd with _ | img
      · simp only [hb, hr]
        exact ih _ _ _ (extractPreInv_updateStatus snapshot st hd .error (Or.inr rfl) h)
      · simp only [hb, hr]
        exact ih _ _ _ (extractPreInv_setImageUrl snapshot st hd img hb h)
    · simp only [hb]
      exact ih _ _ _ h

/-- On `aborted` the apply step is skipped on every path, so the result
is exactly the state left by the pre-call writes. -/
theorem performBatchExtraction_aborted (snapshot : Ledger) (env : ExtractEnv)
    (pageNums : List Nat) (mode : ProcessingMode) :
    performBatchExtraction snapshot env pageNums .aborted mode =
      (extractionPrepare snapshot env pageNums
        (pageNums.foldl (fun st p => updatePageStatus st p .analyzing) snapshot)).1 := by
  unfold performBatchExtraction
  exact ite_self _

/-- C1 (amended): cancelling the document scope mid-batch discards the
batch's *result* — no page's text, audio or segments change, and no page
advances to `extracted`/`ready` — but the Ledger is *not* restored to its
pre-batch state: the `analyzing` marks, the per-page `error` marks from
failed renders, and freshly cached page images written before the abort
all survive. -/
theorem extraction_abort_effects (snapshot : Ledger) (env : ExtractEnv)
    (pageNums : List Nat) (mode : ProcessingMode) :
    ExtractPreInv snapshot (performBatchExtraction snapshot env pageNums .aborted mode) := by
  rw [performBatchExtraction_aborted]
  have hbase : ExtractPreInv snapshot
      (pageNums.foldl (fun st p => updatePageStatus st p .analyzing) snapshot) :=
    extractPreInv_foldStatus pageNums snapshot snapshot .analyzing (Or.inl rfl)
      (extractPreInv_refl snapshot)
  exact extractPreInv_prepare pageNums snapshot env _ [] [] hbase

/-- C1 witness: the amended theorem applied at a concrete batch. -/
theorem extraction_abort_effects_witness :
    ExtractPreInv [{ pageNumber := 1, originalText := "t", status := .pending }]
      (performBatchExtraction
        [{ pageNumber := 1, originalText := "t", status := .pending }]
        ⟨fun _ => "raw", fun _ => some "img"⟩ [1] .aborted .audio) :=
  extraction_abort_effects
    [{ pageNumber := 1, originalText := "t", status := .pending }]
    ⟨fun _ => "raw", fun _ => some "img"⟩ [1] .audio

/-- C1 counterexample: the claim as stated is false — after an abort the
batch's page is left `analyzing` with a freshly cached image, not in its
pre-batch Ledger state (`pending`, no image). -/
theorem extraction_abort_not_rollback :
    performBatchExtraction
        [{ pageNumber := 1, originalText := "", status := .pending }]
        ⟨fun _ => "raw", fun _ => some "img"⟩ [1] .aborted .audio ≠
      [{ pageNumber := 1, originalText := "", status := .pending }] ∧
    (performBatchExtraction
        [{ pageNumber := 1, originalText := "", status := .pending }]
        ⟨fun _ => "raw", fun _ => some "img"⟩ [1] .aborted .audio).get? 0 =
      some { pageNumber := 1, originalText := "", status := .analyzing,
             imageUrl := some "img" } := by
  constructor
  · decide
  · decide

/-! ## C4 — status guards at result-apply time -/

/-- The extraction apply step leaves every page that is no longer
`analyzing` untouched. -/
theorem applyExtractionResults_not_analyzing :
    ∀ (pageNums : List Nat) (pages : Ledger) (results raw : List (Nat × String))
      (mode : ProcessingMode) (idx : Nat) (pg : NarratedPage),
      pages.get? idx = some pg → pg.status ≠ .analyzing →
      (applyExtractionResults pages pageNums results raw mode).get? idx = some pg := by
  intro pageNums
  induction pageNums with
  | nil => intro pages results raw mode idx pg hpg _; exact hpg
  | cons hd tl ih =>
    intro pages results raw mode idx pg hpg hst
    unfold applyExtractionResults
    simp only [List.foldl_cons]
    apply ih _ results raw mode idx pg _ hst
    rcases hpa : pageAt pages hd with _ | q
    · simpa [hpa] using hpg
    · by_cases hq : q.status = .analyzing
      · have hd0 : hd ≠ 0 := by
          intro h
          rw [h] at hpa
          simp [pageAt] at hpa
        have hpa' : pages.get? (hd - 1) = some q := by
          unfold pageAt at hpa
          rwa [if_neg hd0] at hpa
        by_cases hidx : idx = hd - 1
        · subst hidx
          rw [hpg] at hpa'
          injection hpa' with h'
          subst h'
          exact absurd hq hst
        · simp only [hpa, hq, if_true, eq_self_iff_true]
          rw [List.get?_set_ne _ _ (fun h => hidx h.symm)]
          exact hpg
      · simp only [hpa, hq, if_false]
        exact hpg

/-- One step of the synthesis apply fold, entrywise. -/
theorem synthStep_get?_cases (pages : Ledger) (entry : Nat × SynthResult)
    (idx : Nat) :
    ((fun (copy : Ledger) (e : Nat × SynthResult) =>
        match pageAt copy e.1 with
        | some pg =>
          copy.set (e.1 - 1)
            { pg with audioUrl := some e.2.audioUrl
                      segments := e.2.segments
                      status := .ready }
        | none => copy) pages entry).get? idx = pages.get? idx ∨
    ∃ q, ((fun (copy : Ledger) (e : Nat × SynthResult) =>
        match pageAt copy e.1 with
        | some pg =>
          copy.set (e.1 - 1)
            { pg with audioUrl := some e.2.audioUrl
                      segments := e.2.segments
                      status := .ready }
        | none => copy) pages entry).get? idx = some q ∧ q.status = .ready := by
  rcases hpa : pageAt pages entry.1 with _ | q
  · simp [hpa]
  · simp only [hpa]
    by_cases hidx : idx = entry.1 - 1
    · subst hidx
      have hq : pages.get? (entry.1 - 1) = some q := by
        unfold pageAt at hpa
        by_cases h0 : entry.1 = 0
        · rw [if_pos h0] at hpa; exact Option.noConfusion hpa
        · rwa [if_neg h0] at hpa
      exact Or.inr ⟨_, List.get?_set_eq_of_lt _ (get?_some_lt hq), rfl⟩
    · exact Or.inl (List.get?_set_ne _ _ (fun h => hidx h.symm))

/-- The synthesis apply fold, entrywise: each index is unchanged or holds
a freshly written `ready` record. -/
theorem applySynthesisResults_get?_cases :
    ∀ (results : List (Nat × SynthResult)) (pages : Ledger) (idx : Nat),
      (applySynthesisResults pages results).get? idx = pages.get? idx ∨
      ∃ q, (applySynthesisResults pages results).get? idx = some q ∧
        q.status = .ready := by
  intro results
  induction results with
  | nil => intro pages idx; exact Or.inl rfl
  | cons e rest ih =>
    intro pages idx
    unfold applySynthesisResults
    simp only [List.foldl_cons]
    rcases ih ((fun (copy : Ledger) (e : Nat × SynthResult) =>
        match pageAt copy e.1 with
        | some pg =>
          copy.set (e.1 - 1)
            { pg with audioUrl := some e.2.audioUrl
                      segments := e.2.segments
                      status := .ready }
        | none => copy) pages e) idx with h1 | ⟨q, hq, hst⟩
    · rcases synthStep_get?_cases pages e idx with h2 | ⟨q, hq, hst⟩
      · exact Or.inl (h1.trans h2)
      · exact Or.inr ⟨q, h1.trans hq, hst⟩
    · exact Or.inr ⟨q, hq, hst⟩

/-- The synthesis apply step writes every existing page keyed in the
result map, whatever its current status. -/
theorem applySynthesisResults_writes :
    ∀ (results : List (Nat × SynthResult)) (pages : Ledger) (p : Nat),
      p ≠ 0 → p ∈ results.map Prod.fst →
      ∀ pg, pages.get? (p - 1) = some pg →
      ∃ q, (applySynthesisResults pages results).get? (p - 1) = some q ∧
        q.status = .ready := by
  intro results
  induction results with
  | nil => intro pages p _ hp; cases hp
  | cons e rest ih =>
    intro pages p hp0 hp pg hpg
    unfold applySynthesisResults
    simp only [List.foldl_cons]
    rcases List.mem_map.1 hp with ⟨e', he', hfst⟩
    by_cases he : e.1 = p
    · -- this entry writes the page to `ready`; the rest keeps it `ready`
      have hpa : pageAt pages p = some pg := by
        unfold pageAt
        rw [if_neg hp0]
        exact hpg
      have hwrite : ((fun (copy : Ledger) (e : Nat × SynthResult) =>
          match pageAt copy e.1 with
          | some pg =>
            copy.set (e.1 - 1)
              { pg with audioUrl := some e.2.audioUrl
                        segments := e.2.segments
                        status := .ready }
          | none => copy) pages e).get? (p - 1) =
          some { pg with audioUrl := some e.2.audioUrl
                         segments := e.2.segments
                         status := .ready } := by
        simp only [he, hpa]
        exact List.get?_set_eq_of_lt _ (get?_some_lt hpg)
      rcases applySynthesisResults_get?_cases rest _ (p - 1) with h1 | ⟨q, hq, hst⟩
      · exact ⟨_, h1.trans hwrite, rfl⟩
      · exact ⟨q, hq, hst⟩
    · -- this entry leaves index `p - 1` alone
      have hstep : ((fun (copy : Ledger) (e : Nat × SynthResult) =>
          match pageAt copy e.1 with
          | some pg =>
            copy.set (e.1 - 1)
              { pg with audioUrl := some e.2.audioUrl
                        segments := e.2.segments
                        status := .ready }
          | none => copy) pages e).get? (p - 1) = some pg := by
        rcases hpa : pageAt pages e.1 with _ | q
        · simp only [hpa]; exact hpg
        · have he0 : e.1 ≠ 0 := by
            intro h
            rw [h] at hpa
            simp [pageAt] at hpa
          simp only [hpa]
          rw [List.get?_set_ne _ _ (by omega)]
          exact hpg
      have hmem : p ∈ rest.map Prod.fst := by
        rcases List.mem_cons.1 he' with rfl | h
        · exact absurd hfst he
        · exact List.mem_map.2 ⟨e', h, hfst⟩
      exact ih _ p hp0 hmem pg hstep

/-- C4 (amended): at apply time the *extraction* result is written only
to pages still `analyzing` — any page in another status is left exactly as
it is — but the *synthesis* result map carries no such guard: every target
page that exists is overwritten and set to `ready` regardless of its
status at apply time. -/
theorem apply_step_guards :
    (∀ (pageNums : List Nat) (pages : Ledger) (results raw : List (Nat × String))
        (mode : ProcessingMode) (idx : Nat) (pg : NarratedPage),
        pages.get? idx = some pg → pg.status ≠ .analyzing →
        (applyExtractionResults pages pageNums results raw mode).get? idx = some pg) ∧
    (∀ (results : List (Nat × SynthResult)) (pages : Ledger) (p : Nat),
        p ≠ 0 → p ∈ results.map Prod.fst →
        ∀ pg, pages.get? (p - 1) = some pg →
        ∃ q, (applySynthesisResults pages results).get? (p - 1) = some q ∧
          q.status = .ready) :=
  ⟨applyExtractionResults_not_analyzing, applySynthesisResults_writes⟩

/-- C4 witness: both guards exercised at concrete inputs. -/
theorem apply_step_guards_witness :
    (applyExtractionResults
        [{ pageNumber := 1, originalText := "t", status := .ready }]
        [1] [] [] .audio).get? 0 =
      some { pageNumber := 1, originalText := "t", status := .ready } ∧
    ∃ q, (applySynthesisResults
        [{ pageNumber := 1, originalText := "t", status := .pending }]
        [(1, { audioUrl := "u", segments := [] })]).get? 0 = some q ∧
      q.status = .ready :=
  ⟨apply_step_guards.1 [1] _ [] [] .audio 0 _ rfl (by decide),
   apply_step_guards.2 [(1, { audioUrl := "u", segments := [] })] _ 1
     (by decide) (by decide) _ rfl⟩

/-- C4 counterexample: a synthesis result for a page in status `error`
(not `synthesizing`) is *not* left unchanged — the apply step overwrites
it and sets it `ready`. -/
theorem synthesis_apply_unguarded :
    applySynthesisResults
        [{ pageNumber := 1, originalText := "txt", status := .error }]
        [(1, { audioUrl := "blob:a", segments := [] })] =
      [{ pageNumber := 1, originalText := "txt", status := .ready,
         audioUrl := some "blob:a", segments := [] }] ∧
    ({ pageNumber := 1, originalText := "txt", status := .error } :
        NarratedPage).status ≠ .synthesizing := by
  exact ⟨by decide, by decide⟩

/-! ## C9 — retry ceilings on quota exhaustion -/

/-- C9 evidence: against a collaborator that answers 429 forever,
`retryGenerate` in `src/services/geminiService.ts` never terminates —
after any number of iterations it is still looping with the attempt
counter untouched (the 429 branch neither increments `attempt` nor checks
any ceiling) — while the `retryGenerate` of `src/unnamed/part_004`
(default `retries = 5`) throws the error after its `retries * 2` ceiling,
i.e. on the 11th iteration. -/
theorem retryGenerate_429_no_ceiling :
    (∀ fuel k : Nat,
        retryRun (retryGenerateStep 5) (fun _ => .err 429) fuel k 0 =
          .running 0) ∧
    retryRun (retryGenerateStepP4 5) (fun _ => .err 429) 11 0 0 =
      .thrown 429 ∧
    retryRun (retryGenerateStepP4 5) (fun _ => .err 429) 10 0 0 =
      .running 10 := by
  refine ⟨?_, by decide, by decide⟩
  intro fuel
  induction fuel with
  | zero => intro k; rfl
  | succ n ih =>
    intro k
    exact ih (k + 1)

/-- C9 witness: the nonterminating loop observed at a concrete fuel. -/
theorem retryGenerate_429_no_ceiling_witness :
    retryRun (retryGenerateStep 5) (fun _ => .err 429) 1000 0 0 = .running 0 :=
  retryGenerate_429_no_ceiling.1 1000 0

/-! ## C10 — blank pages in a synthesis batch -/

/-- Appending requests for other keys never adds one for `p`. -/
theorem synthesizeBatchModel_preserve :
    ∀ (rest : List (Nat × String)) (synthPage : Nat → String → SynthResult)
      (acc : List (Nat × SynthResult) × List (Nat × String)) (p : Nat),
      (∀ e ∈ rest, e.1 ≠ p) →
      mapGet (rest.foldl (fun acc pg =>
          if jsTrim pg.2 = "" then (mapSet acc.1 pg.1 ⟨"", []⟩, acc.2)
          else (mapSet acc.1 pg.1 (synthPage pg.1 pg.2), acc.2 ++ [(pg.1, pg.2)]))
        acc).1 p = mapGet acc.1 p ∧
      ∀ e ∈ (rest.foldl (fun acc pg =>
          if jsTrim pg.2 = "" then (mapSet acc.1 pg.1 ⟨"", []⟩, acc.2)
          else (mapSet acc.1 pg.1 (synthPage pg.1 pg.2), acc.2 ++ [(pg.1, pg.2)]))
        acc).2, e ∈ acc.2 ∨ e.1 ≠ p := by
  intro rest
  induction rest with
  | nil => exact fun synthPage acc p _ => ⟨rfl, fun e he => Or.inl he⟩
  | cons hd tl ih =>
    intro synthPage acc p hk
    simp only [List.foldl_cons]
    have hhd : hd.1 ≠ p := hk hd (List.mem_cons_self hd tl)
    have htl : ∀ e ∈ tl, e.1 ≠ p := fun e he => hk e (List.mem_cons_of_mem hd he)
    by_cases hb : jsTrim hd.2 = ""
    · obtain ⟨h1, h2⟩ := ih synthPage (mapSet acc.1 hd.1 ⟨"", []⟩, acc.2) p htl
      rw [if_pos hb]
      exact ⟨h1.trans (mapGet_mapSet_ne acc.1 hd.1 p ⟨"", []⟩ hhd), h2⟩
    · obtain ⟨h1, h2⟩ := ih synthPage
        (mapSet acc.1 hd.1 (synthPage hd.1 hd.2), acc.2 ++ [(hd.1, hd.2)]) p htl
      rw [if_neg hb]
      refine ⟨h1.trans (mapGet_mapSet_ne acc.1 hd.1 p _ hhd), fun e he => ?_⟩
      rcases h2 e he with hmem | hne
      · rcases List.mem_append.1 hmem with h | h
        · exact Or.inl h
        · simp only [List.mem_singleton] at h
          subst h
          exact Or.inr hhd
      · exact Or.inr hne

/-- The generalized induction behind C10, tracking an arbitrary
accumulator whose request log does not yet mention `p`. -/
theorem synthesizeBatchModel_blank_aux :
    ∀ (pages : List (Nat × String)) (synthPage : Nat → String → SynthResult)
      (acc : List (Nat × SynthResult) × List (Nat × String)) (p : Nat) (t : String),
      (p, t) ∈ pages → jsTrim t = "" → (pages.map Prod.fst).Nodup →
      (∀ e ∈ acc.2, e.1 ≠ p) →
      mapGet (pages.foldl (fun acc pg =>
          if jsTrim pg.2 = "" then (mapSet acc.1 pg.1 ⟨"", []⟩, acc.2)
          else (mapSet acc.1 pg.1 (synthPage pg.1 pg.2), acc.2 ++ [(pg.1, pg.2)]))
        acc).1 p = some ⟨"", []⟩ ∧
      ∀ e ∈ (pages.foldl (fun acc pg =>
          if jsTrim pg.2 = "" then (mapSet acc.1 pg.1 ⟨"", []⟩, acc.2)
          else (mapSet acc.1 pg.1 (synthPage pg.1 pg.2), acc.2 ++ [(pg.1, pg.2)]))
        acc).2, e.1 ≠ p := by
  intro pages
  induction pages with
  | nil => intro synthPage acc p t hmem; cases hmem
  | cons hd tl ih =>
    intro synthPage acc p t hmem ht hnd hlog
    simp only [List.foldl_cons]
    have hnd' : (tl.map Prod.fst).Nodup := (List.nodup_cons.1 hnd).2
    rcases List.mem_cons.1 hmem with rfl | hmem'
    · -- the blank page itself: its result entry is written now and
      -- never touched again (its key is not among the remaining keys)
      rw [if_pos ht]
      have hkeys : ∀ e ∈ tl, e.1 ≠ p := by
        intro e he hep
        have hmm : e.1 ∈ tl.map Prod.fst := List.mem_map_of_mem Prod.fst he
        rw [hep] at hmm
        exact (List.nodup_cons.1 hnd).1 hmm
      obtain ⟨h1, h2⟩ := synthesizeBatchModel_preserve tl synthPage
        (mapSet acc.1 p ⟨"", []⟩, acc.2) p hkeys
      refine ⟨h1.trans (mapGet_mapSet_self acc.1 p ⟨"", []⟩), fun e he => ?_⟩
      rcases h2 e he with hmem | hne
      · exact hlog e hmem
      · exact hne
    · -- a different head page: its key differs from `p`
      have hhd : hd.1 ≠ p := by
        intro hep
        have hmm : p ∈ tl.map Prod.fst := List.mem_map_of_mem Prod.fst hmem'
        rw [← hep] at hmm
        exact (List.nodup_cons.1 hnd).1 hmm
      by_cases hb : jsTrim hd.2 = ""
      · rw [if_pos hb]
        exact ih synthPage _ p t hmem' ht hnd' hlog
      · rw [if_neg hb]
        refine ih synthPage _ p t hmem' ht hnd' (fun e he => ?_)
        rcases List.mem_append.1 he with h | h
        · exact hlog e h
        · simp only [List.mem_singleton] at h
          subst h
          exact hhd

/-- C10: in a synthesis batch with distinct page numbers, every page
whose text is empty or whitespace-only is still a key of the returned
result map, mapped to an empty audio URL and an empty segment list, and
the TTS request log contains no request for it. -/
theorem synthesizeBatch_blank_pages (synthPage : Nat → String → SynthResult)
    (pages : List (Nat × String)) (hnd : (pages.map Prod.fst).Nodup)
    (p : Nat) (t : String) (hmem : (p, t) ∈ pages) (ht : jsTrim t = "") :
    mapGet (synthesizeBatchModel synthPage pages).1 p =
      some { audioUrl := "", segments := [] } ∧
    ∀ e ∈ (synthesizeBatchModel synthPage pages).2, e.1 ≠ p := by
  unfold synthesizeBatchModel
  exact synthesizeBatchModel_blank_aux pages synthPage ([], []) p t hmem ht hnd
    (fun e he => absurd he (List.not_mem_nil e))

/-- C10 witness: a two-page batch with one whitespace-only page. -/
theorem synthesizeBatch_blank_pages_witness :
    mapGet (synthesizeBatchModel (fun _ _ => { audioUrl := "u", segments := [] })
        [(1, "  "), (2, "hello")]).1 1 =
      some { audioUrl := "", segments := [] } ∧
    ∀ e ∈ (synthesizeBatchModel (fun _ _ => { audioUrl := "u", segments := [] })
        [(1, "  "), (2, "hello")]).2, e.1 ≠ 1 :=
  synthesizeBatch_blank_pages (fun _ _ => { audioUrl := "u", segments := [] })
    [(1, "  "), (2, "hello")] (by decide) 1 "  " (by decide) (by decide)

/-! ## C8 — WAV concatenation -/

/-- The 44-byte RIFF/WAVE header `createWavBlob` writes for `d` bytes of
sample data: RIFF size `36 + d` at offset 4, `data` length `d` at
offset 40, all other fields independent of `d`. -/
def wavHeader (d rate : Nat) : List Nat :=
  [82, 73, 70, 70] ++ u32le (36 + d) ++
  [87, 65, 86, 69] ++ [102, 109, 116, 32] ++
  u32le 16 ++ u16le 1 ++ u16le 1 ++ u32le rate ++
  u32le (rate * 2) ++ u16le 2 ++ u16le 16 ++
  [100, 97, 116, 97] ++ u32le d

/-- `createWavBlob` is exactly header-then-data. -/
theorem createWavBytes_eq_header (pcm : List Nat) (rate : Nat) :
    createWavBytes pcm rate = wavHeader pcm.length rate ++ pcm := rfl

set_option maxHeartbeats 2000000 in
/-- C8 (amended): concatenating two containers A (`n1` data bytes) and B
(`n2` data bytes) yields a container whose sample data is A's data
followed by B's data and whose header is *A's header with the RIFF-size
field rewritten to `36 + n1 + n2` and the data-length field rewritten to
`n1 + n2`* — equivalently, exactly the header `createWavBlob` would write
for `n1 + n2` bytes at A's sample rate; the first 44 bytes do not in
general equal A's header byte-for-byte, since A's header declares `n1`. -/
theorem concatWav_spec (p1 p2 : List Nat) (r1 r2 : Nat) :
    concatWav (createWavBytes p1 r1) (createWavBytes p2 r2) =
      wavHeader (p1.length + p2.length) r1 ++ (p1 ++ p2) ∧
    (concatWav (createWavBytes p1 r1) (createWavBytes p2 r2)).drop 44 =
      p1 ++ p2 ∧
    ((concatWav (createWavBytes p1 r1) (createWavBytes p2 r2)).drop 4).take 4 =
      u32le (36 + (p1.length + p2.length)) ∧
    ((concatWav (createWavBytes p1 r1) (createWavBytes p2 r2)).drop 40).take 4 =
      u32le (p1.length + p2.length) := by
  have h : concatWav (createWavBytes p1 r1) (createWavBytes p2 r2) =
      wavHeader (p1.length + p2.length) r1 ++ (p1 ++ p2) := rfl
  rw [h]
  exact ⟨rfl, rfl, rfl, rfl⟩

/-- C8 counterexample: for A with 1 data byte and B with 2, the first 44
bytes of the concatenation differ from A's header (offsets 4 and 40 now
declare 3 data bytes, A's header declares 1); they equal instead the
header for the concatenated data. -/
theorem concatWav_header_rewritten :
    (concatWav (createWavBytes [7] 24000) (createWavBytes [8, 9] 24000)).take 44 ≠
      (createWavBytes [7] 24000).take 44 ∧
    (concatWav (createWavBytes [7] 24000) (createWavBytes [8, 9] 24000)).take 44 =
      (createWavBytes ([7] ++ [8, 9]) 24000).take 44 := by
  exact ⟨by decide, by decide⟩

/-! ## C5 — extraction batch selection refines the spec's description -/

/-- The inner growth loop, fully unfolded (`BATCH_SIZE_EXTRACTION = 3`
allows at most two extra pages). -/
theorem extendBatch_one (ok : Nat → Bool) (i : Nat) :
    extendBatch ok i 1 =
      if ok (i + 1) then (if ok (i + 2) then [i + 1, i + 2] else [i + 1]) else [] := by
  rw [extendBatch]
  simp only [show (1 : Nat) < 3 from by norm_num, if_true]
  rw [extendBatch]
  simp only [show (2 : Nat) < 3 from by norm_num, if_true]
  rw [extendBatch]
  by_cases h1 : ok (i + 1) <;> by_cases h2 : ok (i + 2) <;> simp [h1, h2]

/-- A started batch is the eligible prefix of the three candidate pages. -/
theorem extendBatch_eq_takeWhile (ok : Nat → Bool) (i : Nat) (hi : ok i = true) :
    i :: extendBatch ok i 1 = (List.range' i 3).takeWhile ok := by
  have hr : List.range' i 3 = [i, i + 1, i + 2] := rfl
  rw [hr, extendBatch_one]
  by_cases h1 : ok (i + 1) <;> by_cases h2 : ok (i + 2) <;>
    simp [List.takeWhile, hi, h1, h2]

/-- Phase 1 of `findBatchToExtract` equals the spec's "first eligible
page in `[cur, total]`, then its eligible run". -/
theorem scanForwardBatch_eq (pages : Ledger) (disp : List Nat) (total : Nat) :
    ∀ i, scanForwardBatch pages disp total i =
      match (List.range' i (total + 1 - i)).find? (eligiblePage pages disp) with
      | some k =>
        k :: extendBatch (fun n => decide (n ≤ total) && eligiblePage pages disp n) k 1
      | none => [] := by
  suffices h : ∀ n i, total + 1 - i = n → scanForwardBatch pages disp total i =
      match (List.range' i (total + 1 - i)).find? (eligiblePage pages disp) with
      | some k =>
        k :: extendBatch (fun n => decide (n ≤ total) && eligiblePage pages disp n) k 1
      | none => [] by
    exact fun i => h _ i rfl
  intro n
  induction n with
  | zero =>
    intro i hi
    have hgt : ¬ i ≤ total := by omega
    rw [scanForwardBatch, if_neg hgt, hi]
    rfl
  | succ n ih =>
    intro i hi
    have hle : i ≤ total := by omega
    have hsplit : total + 1 - i = (total - i) + 1 := by omega
    have hr : List.range' i (total + 1 - i) =
        i :: List.range' (i + 1) (total - i) := by
      rw [hsplit]
      rfl
    rw [scanForwardBatch, if_pos hle, hr]
    by_cases he : eligiblePage pages disp i
    · rw [if_pos he, List.find?_cons_of_pos _ he]
    · rw [if_neg he, List.find?_cons_of_neg _ (by simp [he])]
      have := ih (i + 1) (by omega)
      rw [this]
      have : total + 1 - (i + 1) = total - i := by omega
      rw [this]

/-- Phase 2 of `findBatchToExtract` equals the spec's "first eligible
page in `[1, cur)`, then its eligible run below `cur`". -/
theorem scanBackBatch_eq (pages : Ledger) (disp : List Nat) (cur : Nat) :
    ∀ i, scanBackBatch pages disp cur i =
      match (List.range' i (cur - i)).find? (eligiblePage pages disp) with
      | some k =>
        k :: extendBatch (fun n => decide (n < cur) && eligiblePage pages disp n) k 1
      | none => [] := by
  suffices h : ∀ n i, cur - i = n → scanBackBatch pages disp cur i =
      match (List.range' i (cur - i)).find? (eligiblePage pages disp) with
      | some k =>
        k :: extendBatch (fun n => decide (n < cur) && eligiblePage pages disp n) k 1
      | none => [] by
    exact fun i => h _ i rfl
  intro n
  induction n with
  | zero =>
    intro i hi
    have hgt : ¬ i < cur := by omega
    rw [scanBackBatch, if_neg hgt, hi]
    rfl
  | succ n ih =>
    intro i hi
    have hlt : i < cur := by omega
    have hsplit : cur - i = (cur - (i + 1)) + 1 := by omega
    have hr : List.range' i (cur - i) =
        i :: List.range' (i + 1) (cur - (i + 1)) := by
      rw [hsplit]
      rfl
    rw [scanBackBatch, if_pos hlt, hr]
    by_cases he : eligiblePage pages disp i
    · rw [if_pos he, List.find?_cons_of_pos _ he]
    · rw [if_neg he, List.find?_cons_of_neg _ (by simp [he])]
      exact ih (i + 1) (by omega)

/-- The two-phase selection as implemented equals the spec's description. -/
theorem findBatchToExtract_eq_spec (pages : Ledger) (disp : List Nat)
    (cur total : Nat) :
    findBatchToExtract pages disp cur total = findBatchSpec pages disp cur total := by
  unfold findBatchToExtract findBatchSpec specForwardRun specBackRun
  rw [scanForwardBatch_eq, scanBackBatch_eq]
  rcases hf : (List.range' cur (total + 1 - cur)).find? (eligiblePage pages disp)
      with _ | k
  · simp only [hf, Option.map_none', if_pos rfl]
    rcases hb : (List.range' 1 (cur - 1)).find? (eligiblePage pages disp) with _ | k
    · rfl
    · have helig : eligiblePage pages disp k = true := List.find?_some hb
      have hmem := List.mem_of_find?_eq_some hb
      have hk : k < cur := by
        have := (List.mem_range'_1).1 hmem
        omega
      have hok : (fun n => decide (n < cur) && eligiblePage pages disp n) k = true := by
        simp [hk, helig]
      simp only [Option.map_some', Option.getD_some]
      exact extendBatch_eq_takeWhile _ k hok
  · have helig : eligiblePage pages disp k = true := List.find?_some hf
    have hmem := List.mem_of_find?_eq_some hf
    have hk : k ≤ total := by
      have := (List.mem_range'_1).1 hmem
      omega
    have hok : (fun n => decide (n ≤ total) && eligiblePage pages disp n) k = true := by
      simp [hk, helig]
    simp only [hf, Option.map_some']
    rw [if_neg (List.cons_ne_nil _ _)]
    exact extendBatch_eq_takeWhile _ k hok

/-- The all-pending ten-page document of the spec's end-to-end scenario. -/
def tenPending : Ledger :=
  (List.range 10).map fun i =>
    { pageNumber := i + 1, originalText := "", status := .pending }

/-- A rendering environment where every page yields an image. -/
def c5env : ExtractEnv := ⟨fun _ => "raw text", fun _ => some "img"⟩

/-- C5: `findBatchToExtract` returns exactly the first run of up to
`BATCH_SIZE = 3` contiguous eligible (`pending`, undispatched) pages,
scanning from the currently-viewed page to the last and only then from
page 1 up to (excluding) the current page; and in the ten-page scenario
the first batch is `[1, 2, 3]`, and after that batch completes (its
pages now `extracted`) the next selection is `[4, 5, 6]`. -/
theorem findBatchToExtract_claim :
    (∀ (pages : Ledger) (disp : List Nat) (cur total : Nat),
        findBatchToExtract pages disp cur total =
          findBatchSpec pages disp cur total) ∧
    findBatchToExtract tenPending [] 1 10 = [1, 2, 3] ∧
    findBatchToExtract
        (performBatchExtraction tenPending c5env [1, 2, 3]
          (.success [(1, "one"), (2, "two"), (3, "three")]) .audio)
        [] 1 10 = [4, 5, 6] := by
  refine ⟨findBatchToExtract_eq_spec, ?_, ?_⟩
  · rw [findBatchToExtract_eq_spec]
    decide
  · rw [findBatchToExtract_eq_spec]
    decide

/-! ## C2 — Dispatch Set exclusivity -/

theorem mem_foldl_setAdd (l : List Nat) (d : List Nat) (p : Nat) :
    p ∈ l.foldl setAdd d ↔ p ∈ d ∨ p ∈ l := by
  induction l generalizing d with
  | nil => simp
  | cons h t ih =>
    simp only [List.foldl_cons, ih, List.mem_cons]
    unfold setAdd
    by_cases hh : h ∈ d
    · rw [if_pos hh]
      constructor
      · rintro (hd | ht)
        · exact Or.inl hd
        · exact Or.inr (Or.inr ht)
      · rintro (hd | rfl | ht)
        · exact Or.inl hd
        · exact Or.inl hh
        · exact Or.inr ht
    · rw [if_neg hh]
      simp only [List.mem_append, List.mem_singleton]
      constructor
      · rintro ((hd | rfl) | ht)
        · exact Or.inl hd
        · exact Or.inr (Or.inl rfl)
        · exact Or.inr (Or.inr ht)
      · rintro (hd | rfl | ht)
        · exact Or.inl (Or.inl hd)
        · exact Or.inl (Or.inr rfl)
        · exact Or.inr ht

theorem mem_foldl_setDelete (l : List Nat) (d : List Nat) (p : Nat) :
    p ∈ l.foldl setDelete d ↔ p ∈ d ∧ p ∉ l := by
  induction l generalizing d with
  | nil => simp
  | cons h t ih =>
    simp only [List.foldl_cons, ih, List.mem_cons]
    unfold setDelete
    simp only [List.mem_filter, ne_eq, decide_not, Bool.not_eq_eq_eq_not,
      Bool.not_true, decide_eq_false_iff_not]
    constructor
    · rintro ⟨⟨hd, hne⟩, ht⟩
      exact ⟨hd, by rintro (rfl | hh) <;> [exact hne rfl; exact ht hh]⟩
    · rintro ⟨hd, hnot⟩
      exact ⟨⟨hd, fun heq => hnot (Or.inl heq)⟩, fun hh => hnot (Or.inr hh)⟩

/-- Every page of a selected batch passes the eligibility test (it is
`pending` and *not in the Dispatch Set*). -/
theorem findBatchToExtract_eligible (pages : Ledger) (disp : List Nat)
    (cur total : Nat) :
    ∀ p ∈ findBatchToExtract pages disp cur total,
      eligiblePage pages disp p = true := by
  rw [findBatchToExtract_eq_spec]
  unfold findBatchSpec specForwardRun specBackRun
  intro p hp
  rcases hf : (List.range' cur (total + 1 - cur)).find? (eligiblePage pages disp)
      with _ | k
  · rw [hf] at hp
    rcases hb : (List.range' 1 (cur - 1)).find? (eligiblePage pages disp) with _ | k
    · rw [hb] at hp
      cases hp
    · rw [hb] at hp
      simp only [Option.map_some', Option.getD_some] at hp
      have hw := List.mem_takeWhile_imp hp
      rw [Bool.and_eq_true] at hw
      exact hw.2
  · rw [hf] at hp
    simp only [Option.map_some'] at hp
    have hw := List.mem_takeWhile_imp hp
    rw [Bool.and_eq_true] at hw
    exact hw.2

/-- A selected batch repeats no page. -/
theorem findBatchToExtract_nodup (pages : Ledger) (disp : List Nat)
    (cur total : Nat) :
    (findBatchToExtract pages disp cur total).Nodup := by
  rw [findBatchToExtract_eq_spec]
  unfold findBatchSpec specForwardRun specBackRun
  rcases hf : (List.range' cur (total + 1 - cur)).find? (eligiblePage pages disp)
      with _ | k
  · rcases hb : (List.range' 1 (cur - 1)).find? (eligiblePage pages disp) with _ | k
    · simp
    · simp only [Option.map_some', Option.getD_some]
      exact ((List.takeWhile_sublist _).nodup (List.nodup_range' k 3 1 (by norm_num)))
  · simp only [Option.map_some']
    exact ((List.takeWhile_sublist _).nodup (List.nodup_range' k 3 1 (by norm_num)))

/-- Eligibility implies not-claimed. -/
theorem eligiblePage_not_dispatched (pages : Ledger) (disp : List Nat) (p : Nat)
    (h : eligiblePage pages disp p = true) : p ∉ disp := by
  intro hmem
  unfold eligiblePage at h
  rw [Bool.and_eq_true] at h
  obtain ⟨-, h2⟩ := h
  rw [Bool.not_eq_true'] at h2
  have h3 : disp.elem p = true := List.elem_iff.2 hmem
  rw [show disp.contains p = disp.elem p from rfl, h3] at h2
  exact Bool.noConfusion h2

/-- The extraction-pool invariant: every in-flight batch is non-empty,
repeats no page and holds all its pages in the Dispatch Set; in-flight
batches are pairwise disjoint; and no batch is in flight twice. -/
def SchedInv (s : SchedulerState) : Prop :=
  (∀ b ∈ s.inFlight, b ≠ [] ∧ b.Nodup ∧ ∀ p ∈ b, p ∈ s.dispatched) ∧
  s.inFlight.Pairwise (fun b₁ b₂ => ∀ p ∈ b₁, p ∉ b₂) ∧
  s.inFlight.Nodup

theorem schedInv_init (total : Nat) : SchedInv (initialState total) := by
  refine ⟨fun b hb => absurd hb (List.not_mem_nil b), ?_, ?_⟩ <;>
    simp [initialState]

theorem schedInv_step {s s' : SchedulerState} (h : SchedStep s s')
    (hi : SchedInv s) : SchedInv s' := by
  obtain ⟨h1, h2, h3⟩ := hi
  cases h with
  | schedule cur total batch hw hb hne =>
    have helig : ∀ p ∈ batch, p ∉ s.dispatched := by
      intro p hp
      exact eligiblePage_not_dispatched _ _ _
        (findBatchToExtract_eligible s.pages s.dispatched cur total p (hb ▸ hp))
    have hnd : batch.Nodup := hb ▸ findBatchToExtract_nodup s.pages s.dispatched cur total
    have hnotin : batch ∉ s.inFlight := by
      intro hmem
      obtain ⟨hne', _, hdisp⟩ := h1 batch hmem
      obtain ⟨p, hp⟩ := List.exists_mem_of_ne_nil batch hne'
      exact helig p hp (hdisp p hp)
    refine ⟨?_, ?_, ?_⟩
    · intro b hbmem
      rcases List.mem_append.1 hbmem with hold | hnew
      · obtain ⟨hne', hnd', hdisp⟩ := h1 b hold
        exact ⟨hne', hnd', fun p hp =>
          (mem_foldl_setAdd batch s.dispatched p).2 (Or.inl (hdisp p hp))⟩
      · rw [List.mem_singleton.1 hnew]
        exact ⟨hne, hnd, fun p hp =>
          (mem_foldl_setAdd batch s.dispatched p).2 (Or.inr hp)⟩
    · show List.Pairwise (fun b₁ b₂ => ∀ p ∈ b₁, p ∉ b₂) (s.inFlight ++ [batch])
      rw [List.pairwise_append]
      refine ⟨h2, List.pairwise_singleton _ _, ?_⟩
      intro a ha b' hb'
      rw [List.mem_singleton.1 hb']
      intro p hpa hpbatch
      exact helig p hpbatch ((h1 a ha).2.2 p hpa)
    · show (s.inFlight ++ [batch]).Nodup
      simp [List.nodup_append, h3, hnotin]
  | complete batch env outcome mode hin =>
    have hsub := List.erase_sublist batch s.inFlight
    refine ⟨?_, h2.sublist hsub, h3.sublist hsub⟩
    intro b hbmem
    have hbin : b ∈ s.inFlight := hsub.subset hbmem
    obtain ⟨hne', hnd', hdisp⟩ := h1 b hbin
    refine ⟨hne', hnd', fun p hp => ?_⟩
    show p ∈ batch.foldl setDelete s.dispatched
    rw [mem_foldl_setDelete]
    refine ⟨hdisp p hp, ?_⟩
    have hbneq : b ≠ batch := ((List.Nodup.mem_erase_iff h3).1 hbmem).1
    have hsymm : Symmetric (fun b₁ b₂ : List Nat => ∀ p ∈ b₁, p ∉ b₂) := by
      intro x y hxy q hq hqx
      exact hxy q hqx hq
    exact h2.forall hsymm hbin hin hbneq p hp
  | external pages' =>
    exact ⟨h1, h2, h3⟩

theorem schedInv_reachable (total : Nat) (s : SchedulerState)
    (h : SchedReachable total s) : SchedInv s := by
  induction h with
  | init => exact schedInv_init total
  | step _ hs ih => exact schedInv_step hs ih

/-- C2: in every reachable scheduler state, no page number belongs to two
concurrently in-flight extraction batches (in-flight batches are pairwise
disjoint and repeat no page); and the synchronous effect body claims the
batch in the Dispatch Set *before* the active-worker counter is
incremented — at the intermediate state the whole batch is already
dispatched while the counter still has its old value. -/
theorem dispatch_exclusivity (total : Nat) (s : SchedulerState)
    (hs : SchedReachable total s) :
    ((s.inFlight.Pairwise fun b₁ b₂ => ∀ p ∈ b₁, p ∉ b₂) ∧
      ∀ b ∈ s.inFlight, b.Nodup) ∧
    ∀ (st : SchedulerState) (batch : List Nat),
      extractionEffectBody st batch =
        startExtractionWorker (claimDispatch st batch) batch ∧
      (claimDispatch st batch).activeExtractionWorkers =
        st.activeExtractionWorkers ∧
      ∀ p ∈ batch, p ∈ (claimDispatch st batch).dispatched := by
  obtain ⟨h1, h2, _⟩ := schedInv_reachable total s hs
  refine ⟨⟨h2, fun b hb => (h1 b hb).2.1⟩, fun st batch => ⟨rfl, rfl, fun p hp => ?_⟩⟩
  exact (mem_foldl_setAdd batch st.dispatched p).2 (Or.inr hp)

/-- C2 witness: the invariant at a concrete reachable state. -/
theorem dispatch_exclusivity_witness :
    (((initialState 3).inFlight.Pairwise fun b₁ b₂ => ∀ p ∈ b₁, p ∉ b₂) ∧
      ∀ b ∈ (initialState 3).inFlight, b.Nodup) ∧
    ∀ (st : SchedulerState) (batch : List Nat),
      extractionEffectBody st batch =
        startExtractionWorker (claimDispatch st batch) batch ∧
      (claimDispatch st batch).activeExtractionWorkers =
        st.activeExtractionWorkers ∧
      ∀ p ∈ batch, p ∈ (claimDispatch st batch).dispatched :=
  dispatch_exclusivity 3 (initialState 3) SchedReachable.init

/-! ## C6 — synthesis batch selection -/

/-- Total character count of a prospective synthesis batch (the loop's
`currentChars` over the whole batch). -/
def charSum (l : List NarratedPage) : Nat :=
  (l.map fun p => p.originalText.length).sum

theorem charSum_append_singleton (l : List NarratedPage) (p : NarratedPage) :
    charSum (l ++ [p]) = charSum l + p.originalText.length := by
  simp [charSum]

/-- What the `startIdx` search loop returns: the least index in
`[i, i + fuel)` holding an `extracted` page, if any. -/
theorem searchExtractedGo_spec (pages : Ledger) :
    ∀ (fuel i : Nat),
      (∀ k, searchExtractedGo pages fuel i = some k →
        i ≤ k ∧ k < i + fuel ∧
        ((pages.get? k).any fun p => p.status = .extracted) = true ∧
        ∀ j, i ≤ j → j < k →
          ((pages.get? j).any fun p => p.status = .extracted) = false) ∧
      (searchExtractedGo pages fuel i = none →
        ∀ j, i ≤ j → j < i + fuel →
          ((pages.get? j).any fun p => p.status = .extracted) = false) := by
  intro fuel
  induction fuel with
  | zero =>
    intro i
    exact ⟨fun k hk => Option.noConfusion hk, fun _ j _ hj => by omega⟩
  | succ fuel ih =>
    intro i
    by_cases he : ((pages.get? i).any fun p => p.status = .extracted) = true
    · constructor
      · intro k hk
        rw [show searchExtractedGo pages (fuel + 1) i = some i from by
          unfold searchExtractedGo; rw [if_pos he]] at hk
        injection hk with hk'
        subst hk'
        exact ⟨le_refl _, by omega, he, fun j h1 h2 => by omega⟩
      · intro hk
        rw [show searchExtractedGo pages (fuel + 1) i = some i from by
          unfold searchExtractedGo; rw [if_pos he]] at hk
        exact Option.noConfusion hk
    · have hstep : searchExtractedGo pages (fuel + 1) i =
          searchExtractedGo pages fuel (i + 1) := by
        conv_lhs => unfold searchExtractedGo
        rw [if_neg he]
      rw [Bool.not_eq_true] at he
      constructor
      · intro k hk
        rw [hstep] at hk
        obtain ⟨h1, h2, h3, h4⟩ := (ih (i + 1)).1 k hk
        refine ⟨by omega, by omega, h3, fun j hj1 hj2 => ?_⟩
        rcases Nat.eq_or_lt_of_le hj1 with rfl | hlt
        · exact he
        · exact h4 j (by omega) hj2
      · intro hk j hj1 hj2
        rw [hstep] at hk
        rcases Nat.eq_or_lt_of_le hj1 with rfl | hlt
        · exact he
        · exact (ih (i + 1)).2 hk j (by omega) (by omega)

/-- The greedy loop only ever appends a run of consecutive `extracted`
pages read off the Ledger from index `i` on. -/
theorem greedyCollectGo_run (pages : Ledger) :
    ∀ (fuel i : Nat) (batch : List NarratedPage) (chars : Nat),
      ∃ run, greedyCollectGo pages fuel i batch chars = batch ++ run ∧
        ∀ m, m < run.length → ∃ p, pages.get? (i + m) = some p ∧
          run.get? m = some p ∧ p.status = .extracted := by
  intro fuel
  induction fuel with
  | zero =>
    intro i batch chars
    exact ⟨[], (List.append_nil batch).symm, fun m hm => absurd hm (by simp)⟩
  | succ fuel ih =>
    intro i batch chars
    rcases hg : pages.get? i with _ | p
    · refine ⟨[], ?_, fun m hm => absurd hm (by simp)⟩
      unfold greedyCollectGo
      rw [hg]
      exact (List.append_nil batch).symm
    · by_cases hst : p.status = .extracted
      · have hcons : ∀ run', (∀ m, m < run'.length →
            ∃ q, pages.get? (i + 1 + m) = some q ∧ run'.get? m = some q ∧
              q.status = .extracted) →
            ∀ m, m < (p :: run').length → ∃ q, pages.get? (i + m) = some q ∧
              (p :: run').get? m = some q ∧ q.status = .extracted := by
          intro run' hrun m hm
          cases m with
          | zero => exact ⟨p, by simpa using hg, rfl, hst⟩
          | succ m =>
            obtain ⟨q, hq1, hq2, hq3⟩ := hrun m (by simpa using hm)
            exact ⟨q, by rw [show i + (m + 1) = i + 1 + m from by omega]; exact hq1,
              by simpa using hq2, hq3⟩
        by_cases hb : batch = []
        · by_cases hc : chars + p.originalText.length ≥ 4500
          · refine ⟨[p], ?_, ?_⟩
            · unfold greedyCollectGo
              rw [hg]
              simp only [hst, if_pos, hb, if_true, eq_self_iff_true, hc]
            · intro m hm
              have : m = 0 := by simpa using Nat.lt_one_iff.1 (by simpa using hm)
              subst this
              exact ⟨p, by simpa using hg, rfl, hst⟩
          · obtain ⟨run', hrun', hidx⟩ := ih (i + 1) (batch ++ [p])
              (chars + p.originalText.length)
            refine ⟨p :: run', ?_, hcons run' hidx⟩
            have hstep : greedyCollectGo pages (fuel + 1) i batch chars =
                greedyCollectGo pages fuel (i + 1) (batch ++ [p])
                  (chars + p.originalText.length) := by
              conv_lhs => unfold greedyCollectGo
              rw [hg]
              simp only [hst, if_pos, hb, if_true, eq_self_iff_true, hc, if_neg,
                ge_iff_le, not_false_iff]
            rw [hstep, hrun', List.append_assoc, List.singleton_append]
        · by_cases hc : chars + p.originalText.length ≤ 4500
          · obtain ⟨run', hrun', hidx⟩ := ih (i + 1) (batch ++ [p])
              (chars + p.originalText.length)
            refine ⟨p :: run', ?_, hcons run' hidx⟩
            have hstep : greedyCollectGo pages (fuel + 1) i batch chars =
                greedyCollectGo pages fuel (i + 1) (batch ++ [p])
                  (chars + p.originalText.length) := by
              conv_lhs => unfold greedyCollectGo
              rw [hg]
              simp only [hst, if_pos, hb, if_false, hc, if_true]
            rw [hstep, hrun', List.append_assoc, List.singleton_append]
          · refine ⟨[], ?_, fun m hm => absurd hm (by simp)⟩
            unfold greedyCollectGo
            rw [hg]
            simp only [hst, if_pos, hb, if_false, hc, if_neg]
            exact (List.append_nil batch).symm
      · refine ⟨[], ?_, fun m hm => absurd hm (by simp)⟩
        unfold greedyCollectGo
        rw [hg]
        simp only [hst, if_neg, if_false]
        exact (List.append_nil batch).symm

/-- Once the batch is non-empty and within budget, the loop keeps the
running total — the batch's total character count — within `MAX_CHARS`. -/
theorem greedyCollectGo_budget (pages : Ledger) :
    ∀ (fuel i : Nat) (batch : List NarratedPage) (chars : Nat),
      batch ≠ [] → chars = charSum batch → chars ≤ 4500 →
      charSum (greedyCollectGo pages fuel i batch chars) ≤ 4500 := by
  intro fuel
  induction fuel with
  | zero =>
    intro i batch chars _ hchars hle
    rw [show greedyCollectGo pages 0 i batch chars = batch from rfl]
    omega
  | succ fuel ih =>
    intro i batch chars hb hchars hle
    rcases hg : pages.get? i with _ | p
    · have hstep : greedyCollectGo pages (fuel + 1) i batch chars = batch := by
        conv_lhs => unfold greedyCollectGo
        rw [hg]
      rw [hstep]
      omega
    · by_cases hst : p.status = .extracted
      · by_cases hc : chars + p.originalText.length ≤ 4500
        · have hstep : greedyCollectGo pages (fuel + 1) i batch chars =
              greedyCollectGo pages fuel (i + 1) (batch ++ [p])
                (chars + p.originalText.length) := by
            conv_lhs => unfold greedyCollectGo
            rw [hg]
            simp only [hst, if_pos, hb, if_false, hc, if_true]
          rw [hstep]
          exact ih (i + 1) (batch ++ [p]) _ (by simp)
            (by rw [charSum_append_singleton, hchars]) hc
        · have hstep : greedyCollectGo pages (fuel + 1) i batch chars = batch := by
            unfold greedyCollectGo
            rw [hg]
            simp only [hst, if_pos, hb, if_false, hc, if_neg]
          rw [hstep]
          omega
      · have hstep : greedyCollectGo pages (fuel + 1) i batch chars = batch := by
          unfold greedyCollectGo
          rw [hg]
          simp only [hst, if_neg, if_false]
        rw [hstep]
        omega

/-- Starting from an empty batch, the result respects the character
budget, except that a lone first page may reach or exceed it. -/
theorem greedyCollectGo_start (pages : Ledger) (fuel i : Nat) :
    charSum (greedyCollectGo pages fuel i [] 0) ≤ 4500 ∨
      ∃ p, greedyCollectGo pages fuel i [] 0 = [p] ∧
        4500 ≤ p.originalText.length := by
  cases fuel with
  | zero =>
    left
    unfold greedyCollectGo
    simp [charSum]
  | succ fuel =>
    rcases hg : pages.get? i with _ | p
    · left
      unfold greedyCollectGo
      rw [hg]
      simp [charSum]
    · by_cases hst : p.status = .extracted
      · by_cases hc : 0 + p.originalText.length ≥ 4500
        · right
          refine ⟨p, ?_, by omega⟩
          unfold greedyCollectGo
          rw [hg]
          simp only [hst, if_pos, if_true, eq_self_iff_true, hc, List.nil_append]
        · left
          have hstep : greedyCollectGo pages (fuel + 1) i [] 0 =
              greedyCollectGo pages fuel (i + 1) ([] ++ [p])
                (0 + p.originalText.length) := by
            conv_lhs => unfold greedyCollectGo
            rw [hg]
            simp only [hst, if_pos, if_true, eq_self_iff_true, hc, if_neg,
              ge_iff_le, not_false_iff]
          rw [hstep]
          exact greedyCollectGo_budget pages fuel (i + 1) ([] ++ [p]) _ (by simp)
            (by simp [charSum]) (by omega)
      · left
        unfold greedyCollectGo
        rw [hg]
        simp only [hst, if_neg, if_false]
        simp [charSum]

/-- A 2000-character cleaned text. -/
def longText : String := String.mk (List.replicate 2000 'a')

/-- One page of the spec's synthesis scenario. -/
def c6page (n : Nat) : NarratedPage :=
  { pageNumber := n, originalText := longText, status := .extracted }

/-- The three-page Ledger of the spec's synthesis scenario: cleaned text
lengths `[2000, 2000, 2000]`, all pages `extracted`. -/
def c6pages : Ledger := [c6page 1, c6page 2, c6page 3]

theorem longText_length : longText.length = 2000 := by
  rw [show longText.length = (List.replicate 2000 'a').length from rfl,
    List.length_replicate]

/-- C6: any selected synthesis batch starts at the first `extracted` page
at or after the current view position (wrapping to the document start
when the forward scan finds none), is a run of consecutive `extracted`
pages, and its total character count stays within `MAX_CHARS = 4500`
unless its first page alone reaches the budget, in which case it is
dispatched alone; with page texts of length `[2000, 2000, 2000]` the
batch is exactly the first two pages. -/
theorem findBatchToSynth_claim :
    (∀ (pages : Ledger) (cur total : Nat) (B : List NarratedPage),
        findBatchToSynth pages cur total = some B →
        (charSum B ≤ 4500 ∨ ∃ p, B = [p] ∧ 4500 ≤ p.originalText.length) ∧
        ∃ s, findStartIdx pages cur total = some s ∧ s < total ∧
          ((pages.get? s).any fun p => p.status = .extracted) = true ∧
          ((cur - 1 ≤ s ∧ ∀ j, cur - 1 ≤ j → j < s →
              ((pages.get? j).any fun p => p.status = .extracted) = false) ∨
            ((∀ j, cur - 1 ≤ j → j < total →
              ((pages.get? j).any fun p => p.status = .extracted) = false) ∧
             ∀ j, j < s →
              ((pages.get? j).any fun p => p.status = .extracted) = false)) ∧
          ∀ m, m < B.length → ∃ p, pages.get? (s + m) = some p ∧
            B.get? m = some p ∧ p.status = .extracted) ∧
    (findBatchToSynth c6pages 1 3).map (fun b => b.map fun p => p.pageNumber) =
      some [1, 2] := by
  constructor
  · intro pages cur total B hB
    unfold findBatchToSynth at hB
    rcases hs : findStartIdx pages cur total with _ | s
    · rw [hs] at hB
      exact Option.noConfusion hB
    · rw [hs] at hB
      injection hB with hB'
      subst hB'
      have hrun := greedyCollectGo_run pages (total - s) s [] 0
      obtain ⟨run, hrun', hidx⟩ := hrun
      rw [List.nil_append] at hrun'
      refine ⟨greedyCollectGo_start pages (total - s) s, s, rfl, ?_⟩
      have hchar : ∀ m, m < (greedyCollect pages total s [] 0).length →
          ∃ p, pages.get? (s + m) = some p ∧
            (greedyCollect pages total s [] 0).get? m = some p ∧
            p.status = .extracted := by
        intro m hm
        unfold greedyCollect
        unfold greedyCollect at hm
        rw [hrun'] at hm ⊢
        exact hidx m hm
      -- unpack the start-index search
      unfold findStartIdx at hs
      rcases h1 : searchExtracted pages total (cur - 1) with _ | k
      · rw [h1] at hs
        have specW := (searchExtractedGo_spec pages (total - 0) 0).1 s hs
        obtain ⟨_, hsb, hext, hprior⟩ := specW
        have specN := (searchExtractedGo_spec pages (total - (cur - 1)) (cur - 1)).2 h1
        refine ⟨by omega, hext, Or.inr ⟨fun j hj1 hj2 => specN j hj1 (by omega),
          fun j hj => hprior j (by omega) hj⟩, hchar⟩
      · rw [h1] at hs
        injection hs with hs'
        subst hs'
        have specF := (searchExtractedGo_spec pages (total - (cur - 1)) (cur - 1)).1 k h1
        obtain ⟨hsa, hsb, hext, hprior⟩ := specF
        exact ⟨by omega, hext, Or.inl ⟨hsa, hprior⟩, hchar⟩
  · -- the [2000, 2000, 2000] scenario, stepping the greedy loop by hand
    -- so the 2000-character texts are never evaluated character by character
    have hplen : ∀ n, (c6page n).originalText.length = 2000 := fun n => longText_length
    have hstep0 : greedyCollectGo c6pages 3 0 [] 0 =
        greedyCollectGo c6pages 2 1 [c6page 1] 2000 := by
      conv_lhs => unfold greedyCollectGo
      rw [show c6pages.get? 0 = some (c6page 1) from rfl]
      show (if (c6page 1).status = PageStatus.extracted then
          if ([] : List NarratedPage) = [] then
            if 0 + (c6page 1).originalText.length ≥ 4500 then [] ++ [c6page 1]
            else greedyCollectGo c6pages 2 (0 + 1) ([] ++ [c6page 1])
              (0 + (c6page 1).originalText.length)
          else
            if 0 + (c6page 1).originalText.length ≤ 4500 then
              greedyCollectGo c6pages 2 (0 + 1) ([] ++ [c6page 1])
                (0 + (c6page 1).originalText.length)
            else []
        else []) = greedyCollectGo c6pages 2 1 [c6page 1] 2000
      rw [if_pos (show (c6page 1).status = PageStatus.extracted from rfl)]
      rw [if_pos (show ([] : List NarratedPage) = [] from rfl)]
      rw [if_neg (show ¬ (0 + (c6page 1).originalText.length ≥ 4500) from by
        rw [hplen 1]; norm_num)]
      rw [hplen 1]
      norm_num
    have hstep1 : greedyCollectGo c6pages 2 1 [c6page 1] 2000 =
        greedyCollectGo c6pages 1 2 [c6page 1, c6page 2] 4000 := by
      conv_lhs => unfold greedyCollectGo
      rw [show c6pages.get? 1 = some (c6page 2) from rfl]
      show (if (c6page 2).status = PageStatus.extracted then
          if [c6page 1] = ([] : List NarratedPage) then
            if 2000 + (c6page 2).originalText.length ≥ 4500 then
              [c6page 1] ++ [c6page 2]
            else greedyCollectGo c6pages 1 (1 + 1) ([c6page 1] ++ [c6page 2])
              (2000 + (c6page 2).originalText.length)
          else
            if 2000 + (c6page 2).originalText.length ≤ 4500 then
              greedyCollectGo c6pages 1 (1 + 1) ([c6page 1] ++ [c6page 2])
                (2000 + (c6page 2).originalText.length)
            else [c6page 1]
        else [c6page 1]) = greedyCollectGo c6pages 1 2 [c6page 1, c6page 2] 4000
      rw [if_pos (show (c6page 2).status = PageStatus.extracted from rfl)]
      rw [if_neg (show ¬ ([c6page 1] = ([] : List NarratedPage)) from by simp)]
      rw [if_pos (show 2000 + (c6page 2).originalText.length ≤ 4500 from by
        rw [hplen 2]; norm_num)]
      rw [hplen 2]
      norm_num
    have hstep2 : greedyCollectGo c6pages 1 2 [c6page 1, c6page 2] 4000 =
        [c6page 1, c6page 2] := by
      conv_lhs => unfold greedyCollectGo
      rw [show c6pages.get? 2 = some (c6page 3) from rfl]
      show (if (c6page 3).status = PageStatus.extracted then
          if [c6page 1, c6page 2] = ([] : List NarratedPage) then
            if 4000 + (c6page 3).originalText.length ≥ 4500 then
              [c6page 1, c6page 2] ++ [c6page 3]
            else greedyCollectGo c6pages 0 (2 + 1) ([c6page 1, c6page 2] ++ [c6page 3])
              (4000 + (c6page 3).originalText.length)
          else
            if 4000 + (c6page 3).originalText.length ≤ 4500 then
              greedyCollectGo c6pages 0 (2 + 1) ([c6page 1, c6page 2] ++ [c6page 3])
                (4000 + (c6page 3).originalText.length)
            else [c6page 1, c6page 2]
        else [c6page 1, c6page 2]) = [c6page 1, c6page 2]
      rw [if_pos (show (c6page 3).status = PageStatus.extracted from rfl)]
      rw [if_neg (show ¬ ([c6page 1, c6page 2] = ([] : List NarratedPage)) from by
        simp)]
      rw [if_neg (show ¬ (4000 + (c6page 3).originalText.length ≤ 4500) from by
        rw [hplen 3]; norm_num)]
    have hfs : findBatchToSynth c6pages 1 3 = some [c6page 1, c6page 2] := by
      unfold findBatchToSynth
      simp only [show findStartIdx c6pages 1 3 = some 0 from rfl]
      rw [show greedyCollect c6pages 3 0 [] 0 = greedyCollectGo c6pages 3 0 [] 0
        from rfl]
      rw [hstep0, hstep1, hstep2]
    rw [hfs]
    rfl

/-- The one-page Ledger used as the C6 witness input. -/
def c6wpage : NarratedPage :=
  { pageNumber := 1, originalText := "hi", status := .extracted }

/-- C6 witness: the theorem applied to a one-page Ledger. -/
theorem findBatchToSynth_claim_witness :
    (charSum [c6wpage] ≤ 4500 ∨
      ∃ p, [c6wpage] = [p] ∧ 4500 ≤ p.originalText.length) ∧
    ∃ s, findStartIdx [c6wpage] 1 1 = some s ∧ s < 1 ∧
      (([c6wpage].get? s).any fun p => p.status = .extracted) = true ∧
      ((1 - 1 ≤ s ∧ ∀ j, 1 - 1 ≤ j → j < s →
          (([c6wpage].get? j).any fun p => p.status = .extracted) = false) ∨
        ((∀ j, 1 - 1 ≤ j → j < 1 →
          (([c6wpage].get? j).any fun p => p.status = .extracted) = false) ∧
         ∀ j, j < s →
          (([c6wpage].get? j).any fun p => p.status = .extracted) = false)) ∧
      ∀ m, m < ([c6wpage] : List NarratedPage).length →
        ∃ p, [c6wpage].get? (s + m) = some p ∧
          ([c6wpage] : List NarratedPage).get? m = some p ∧
          p.status = .extracted :=
  findBatchToSynth_claim.1 [c6wpage] 1 1 [c6wpage] (by decide)

/-! ## C7 — Audio-Timing Reconstruction -/

/-- Unfolding equation for `pauseScan` on a cons cell. -/
theorem pauseScan_cons (s : Int) (rest : List Int) (i len : Nat) :
    pauseScan (s :: rest) i len =
      if s.natAbs < 50 then pauseScan rest (i + 1) (len + 1)
      else if len > 6000 then ((i : ℚ) / 24000) :: pauseScan rest (i + 1) 0
      else pauseScan rest (i + 1) 0 := rfl

/-- Silence-scan invariants: since a boundary is only recorded at a loud
sample ending a silence run of more than 6000 samples, every recorded
timestamp is positive, at least `i / 24000`, below the stream end, and
the recorded sequence is strictly increasing. -/
theorem pauseScan_props :
    ∀ (l : List Int) (i len : Nat), len ≤ i →
      (∀ t ∈ pauseScan l i len,
        0 < t ∧ ((i : ℚ)) / 24000 ≤ t ∧ t < (((i + l.length : Nat) : ℚ)) / 24000) ∧
      List.Chain' (· < ·) (pauseScan l i len) := by
  intro l
  induction l with
  | nil =>
    intro i len _
    exact ⟨fun t ht => absurd ht (List.not_mem_nil t), List.chain'_nil⟩
  | cons s rest ih =>
    intro i len hlen
    by_cases hq : s.natAbs < 50
    · have hstep : pauseScan (s :: rest) i len = pauseScan rest (i + 1) (len + 1) := by
        rw [pauseScan_cons, if_pos hq]
      rw [hstep]
      obtain ⟨hb, hc⟩ := ih (i + 1) (len + 1) (by omega)
      refine ⟨fun t ht => ?_, hc⟩
      obtain ⟨h1, h2, h3⟩ := hb t ht
      have hle : ((i : ℚ)) / 24000 ≤ (((i + 1 : Nat) : ℚ)) / 24000 := by
        apply div_le_div_of_nonneg_right ?_ (by norm_num)
        · exact_mod_cast Nat.le_succ i
      refine ⟨h1, le_trans hle h2, ?_⟩
      have hcast : ((i + 1 + rest.length : Nat) : ℚ) =
          ((i + (s :: rest).length : Nat) : ℚ) := by
        norm_cast
        simp only [List.length_cons]
        omega
      rw [← hcast]
      exact h3
    · by_cases hrun : len > 6000
      · have hstep : pauseScan (s :: rest) i len =
            ((i : ℚ) / 24000) :: pauseScan rest (i + 1) 0 := by
          rw [pauseScan_cons, if_neg hq, if_pos hrun]
        rw [hstep]
        obtain ⟨hb, hc⟩ := ih (i + 1) 0 (by omega)
        have hipos : 0 < i := by omega
        have hhead : (0 : ℚ) < (i : ℚ) / 24000 := by
          apply div_pos ?_ (by norm_num)
          exact_mod_cast hipos
        have htail : ∀ t ∈ pauseScan rest (i + 1) 0, (i : ℚ) / 24000 < t := by
          intro t ht
          obtain ⟨_, h2, _⟩ := hb t ht
          calc (i : ℚ) / 24000 < (((i + 1 : Nat) : ℚ)) / 24000 := by
                apply (div_lt_div_right (by norm_num)).2
                exact_mod_cast Nat.lt_succ_self i
            _ ≤ t := h2
        constructor
        · intro t ht
          rcases List.mem_cons.1 ht with rfl | htail'
          · refine ⟨hhead, le_refl _, ?_⟩
            apply (div_lt_div_right (by norm_num)).2
            have : i < i + (s :: rest).length := by
              simp only [List.length_cons]
              omega
            exact_mod_cast this
          · obtain ⟨h1, h2, h3⟩ := hb t htail'
            refine ⟨h1, le_trans (le_of_lt (by
              apply (div_lt_div_right (by norm_num)).2
              exact_mod_cast Nat.lt_succ_self i)) h2, ?_⟩
            have hcast : ((i + 1 + rest.length : Nat) : ℚ) =
                ((i + (s :: rest).length : Nat) : ℚ) := by
              norm_cast
              simp only [List.length_cons]
              omega
            rw [← hcast]
            exact h3
        · exact List.chain'_cons'.2 ⟨fun y hy => htail y (List.mem_of_mem_head? hy), hc⟩
      · have hstep : pauseScan (s :: rest) i len = pauseScan rest (i + 1) 0 := by
          rw [pauseScan_cons, if_neg hq, if_neg hrun]
        rw [hstep]
        obtain ⟨hb, hc⟩ := ih (i + 1) 0 (by omega)
        refine ⟨fun t ht => ?_, hc⟩
        obtain ⟨h1, h2, h3⟩ := hb t ht
        refine ⟨h1, le_trans ?_ h2, ?_⟩
        · apply div_le_div_of_nonneg_right ?_ (by norm_num)
          exact_mod_cast Nat.le_succ i
        · have hcast : ((i + 1 + rest.length : Nat) : ℚ) =
              ((i + (s :: rest).length : Nat) : ℚ) := by
            norm_cast
            simp only [List.length_cons]
            omega
          rw [← hcast]
          exact h3

/-- Unfolding equation for `buildBlocksAux` on a cons cell. -/
theorem buildBlocksAux_cons (P : List ℚ) (dur : ℚ) (s : String)
    (rest : List String) (i : Nat) (anchor : ℚ) :
    buildBlocksAux P dur (s :: rest) i anchor =
      { text := s, startTime := anchor,
        duration := max (if nextAnchorVal P dur i - anchor ≤ 0 ∧ rest = []
          then dur - anchor else nextAnchorVal P dur i - anchor) (1/10) } ::
        buildBlocksAux P dur rest (i + 1) (nextAnchorVal P dur i) := rfl

/-- Unfolding equation for `distributeTokens` on a cons cell. -/
theorem distributeTokens_cons (total blockDur : ℚ) (t : TokenW)
    (rest : List TokenW) (intra : ℚ) :
    distributeTokens total blockDur (t :: rest) intra =
      { text := t.text, startTime := intra,
        duration := if t.isSilence then 0 else ((t.weight : ℚ) / total) * blockDur,
        isSilence := t.isSilence } ::
        distributeTokens total blockDur rest
          (intra + if t.isSilence then 0 else ((t.weight : ℚ) / total) * blockDur) := rfl

/-- `pauseTimestamps[i] || duration` when the index is present. -/
theorem nextAnchorVal_of_get (P : List ℚ) (dur : ℚ) (k : Nat) (t : ℚ)
    (h : P.get? k = some t) : nextAnchorVal P dur k = if t = 0 then dur else t := by
  unfold nextAnchorVal
  rw [h]

/-- `pauseTimestamps[i] || duration` when the index is out of range. -/
theorem nextAnchorVal_of_none (P : List ℚ) (dur : ℚ) (k : Nat)
    (h : P.get? k = none) : nextAnchorVal P dur k = dur := by
  unfold nextAnchorVal
  rw [h]

/-- A positive recorded boundary is taken as-is by the `||` fallback. -/
theorem nextAnchorVal_pos_entry (P : List ℚ) (dur : ℚ) (k : Nat) (t : ℚ)
    (ht : 0 < t) (h : P.get? k = some t) : nextAnchorVal P dur k = t := by
  rw [nextAnchorVal_of_get P dur k t h, if_neg (ne_of_gt ht)]

/-- If every recorded boundary is positive and below the page end, every
anchor is nonnegative. -/
theorem nextAnchorVal_nonneg (P : List ℚ) (dur : ℚ) (hdur : 0 ≤ dur)
    (hmem : ∀ j t, P.get? j = some t → 0 < t ∧ t ≤ dur) (k : Nat) :
    0 ≤ nextAnchorVal P dur k := by
  cases h : P.get? k with
  | none => rw [nextAnchorVal_of_none P dur k h]; exact hdur
  | some t =>
    rw [nextAnchorVal_pos_entry P dur k t (hmem k t h).1 h]
    exact le_of_lt (hmem k t h).1

/-- Every anchor is at most the page duration. -/
theorem nextAnchorVal_le_dur (P : List ℚ) (dur : ℚ)
    (hmem : ∀ j t, P.get? j = some t → 0 < t ∧ t ≤ dur) (k : Nat) :
    nextAnchorVal P dur k ≤ dur := by
  cases h : P.get? k with
  | none => rw [nextAnchorVal_of_none P dur k h]
  | some t =>
    rw [nextAnchorVal_pos_entry P dur k t (hmem k t h).1 h]
    exact (hmem k t h).2

/-- Over a sorted positive boundary list, the anchor sequence is
monotone in the index. -/
theorem nextAnchorVal_mono (P : List ℚ) (dur : ℚ)
    (hmem : ∀ j t, P.get? j = some t → 0 < t ∧ t ≤ dur)
    (hsort : List.Pairwise (· < ·) P) :
    ∀ k k', k ≤ k' → nextAnchorVal P dur k ≤ nextAnchorVal P dur k' := by
  intro k k' hkk
  rcases eq_or_lt_of_le hkk with rfl | hlt
  · exact le_refl _
  cases h : P.get? k with
  | none =>
    have hk'n : P.get? k' = none := by
      rw [List.get?_eq_none] at h ⊢
      omega
    rw [nextAnchorVal_of_none P dur k h, nextAnchorVal_of_none P dur k' hk'n]
  | some t =>
    rw [nextAnchorVal_pos_entry P dur k t (hmem k t h).1 h]
    cases h' : P.get? k' with
    | none => rw [nextAnchorVal_of_none P dur k' h']; exact (hmem k t h).2
    | some u =>
      rw [nextAnchorVal_pos_entry P dur k' u (hmem k' u h').1 h']
      obtain ⟨hk, hget⟩ := List.get?_eq_some.1 h
      obtain ⟨hk', hget'⟩ := List.get?_eq_some.1 h'
      have hp := (List.pairwise_iff_get.1 hsort) ⟨k, hk⟩ ⟨k', hk'⟩
        (Fin.mk_lt_mk.mpr hlt)
      rw [hget, hget'] at hp
      exact le_of_lt hp

/-- The detected boundary list of any sample stream consists of positive
values at most the total duration, in strictly increasing order. -/
theorem detectPauses_facts (samples : List Int) :
    (∀ j t, (detectPauses samples).get? j = some t →
      0 < t ∧ t ≤ totalDuration samples) ∧
    List.Pairwise (· < ·) (detectPauses samples) := by
  obtain ⟨hb, hc⟩ := pauseScan_props samples 0 0 (le_refl 0)
  constructor
  · intro j t hj
    have hm : t ∈ pauseScan samples 0 0 := List.get?_mem hj
    obtain ⟨h1, _, h3⟩ := hb t hm
    refine ⟨h1, le_of_lt ?_⟩
    have hcast : ((0 + samples.length : Nat) : ℚ) = (samples.length : ℚ) := by
      norm_num
    rw [hcast] at h3
    exact h3
  · exact List.chain'_iff_pairwise.1 hc

/-- `pageSegments` totals split at a cons: a silence segment contributes
nothing, a non-silence segment its duration. -/
theorem nonSilenceSum_cons (seg : AudioSegment) (l : List AudioSegment) :
    nonSilenceSum (seg :: l) =
      (if seg.isSilence = false then seg.duration else 0) + nonSilenceSum l := by
  unfold nonSilenceSum
  rw [List.filter_cons]
  by_cases hs : seg.isSilence = false
  · simp [hs]
  · simp [hs]

/-- Every distributed segment has nonnegative duration when the weight
total and the block span are nonnegative. -/
theorem distributeTokens_nonneg (total blockDur : ℚ) (ht : 0 ≤ total)
    (hb : 0 ≤ blockDur) :
    ∀ (toks : List TokenW) (intra : ℚ),
      ∀ seg ∈ distributeTokens total blockDur toks intra, 0 ≤ seg.duration := by
  intro toks
  induction toks with
  | nil =>
    intro intra seg hseg
    exact absurd hseg (List.not_mem_nil seg)
  | cons t rest ih =>
    intro intra seg hseg
    rw [distributeTokens_cons] at hseg
    rcases List.mem_cons.1 hseg with rfl | htail
    · show 0 ≤ (if t.isSilence = true then (0:ℚ) else ((t.weight : ℚ) / total) * blockDur)
      by_cases hs : t.isSilence = true
      · rw [if_pos hs]
      · rw [if_neg hs]
        exact mul_nonneg (div_nonneg (Nat.cast_nonneg _) ht) hb
    · exact ih _ seg htail

/-- The intra-sentence loop emits segments whose start times advance
monotonically from the block anchor. -/
theorem distributeTokens_chain (total blockDur : ℚ) (ht : 0 ≤ total)
    (hb : 0 ≤ blockDur) :
    ∀ (toks : List TokenW) (intra : ℚ),
      (∀ seg ∈ distributeTokens total blockDur toks intra, intra ≤ seg.startTime) ∧
      List.Chain' (· ≤ ·)
        ((distributeTokens total blockDur toks intra).map AudioSegment.startTime) := by
  intro toks
  induction toks with
  | nil =>
    intro intra
    exact ⟨fun seg h => absurd h (List.not_mem_nil seg), by simp [distributeTokens]⟩
  | cons t rest ih =>
    intro intra
    have hd : 0 ≤ (if t.isSilence = true then (0:ℚ) else ((t.weight : ℚ) / total) * blockDur) := by
      by_cases hs : t.isSilence = true
      · rw [if_pos hs]
      · rw [if_neg hs]
        exact mul_nonneg (div_nonneg (Nat.cast_nonneg _) ht) hb
    obtain ⟨ihs, ihc⟩ :=
      ih (intra + if t.isSilence = true then (0:ℚ) else ((t.weight : ℚ) / total) * blockDur)
    constructor
    · intro seg hseg
      rw [distributeTokens_cons] at hseg
      rcases List.mem_cons.1 hseg with rfl | htail
      · exact le_refl _
      · exact le_trans (le_add_of_nonneg_right hd) (ihs seg htail)
    · rw [distributeTokens_cons, List.map_cons]
      refine List.chain'_cons'.2 ⟨?_, ihc⟩
      intro y hy
      have hy' := List.mem_of_mem_head? hy
      obtain ⟨seg, hsegmem, hfeq⟩ := List.mem_map.1 hy'
      show intra ≤ y
      rw [← hfeq]
      exact le_trans (le_add_of_nonneg_right hd) (ihs seg hsegmem)

/-- The non-silence weight total of a token list. -/
def nsWeight (toks : List TokenW) : Nat :=
  (toks.map fun t => if t.isSilence then 0 else t.weight).sum

/-- The non-silence durations a `distributeTokens` run emits total the
non-silence share of the block duration. -/
theorem distributeTokens_nonSilenceSum (total blockDur : ℚ) :
    ∀ (toks : List TokenW) (intra : ℚ),
      nonSilenceSum (distributeTokens total blockDur toks intra)
        = ((nsWeight toks : ℚ) / total) * blockDur := by
  intro toks
  induction toks with
  | nil =>
    intro intra
    simp [distributeTokens, nonSilenceSum, nsWeight]
  | cons t rest ih =>
    intro intra
    rw [distributeTokens_cons, nonSilenceSum_cons]
    by_cases hs : t.isSilence = true
    · have h0 : nsWeight (t :: rest) = nsWeight rest := by
        simp [nsWeight, hs]
      rw [ih, h0]
      simp [hs]
    · have hsf : t.isSilence = false := by
        simpa using hs
      have h0 : nsWeight (t :: rest) = t.weight + nsWeight rest := by
        simp [nsWeight, hsf]
      rw [ih, h0]
      simp only [hsf]
      norm_num
      ring


/-- The `totalWeight` fold is the sum of the weights. -/
theorem sumWeights_eq_sum (toks : List TokenW) :
    sumWeights toks = (toks.map TokenW.weight).sum := by
  have h : ∀ (l : List TokenW) (a : Nat),
      l.foldl (fun a t => a + t.weight) a = a + (l.map TokenW.weight).sum := by
    intro l
    induction l with
    | nil => intro a; simp
    | cons t rest ih =>
      intro a
      simp [List.foldl_cons, ih, Nat.add_assoc]
  simpa [sumWeights] using h toks 0

/-- `tokensWithWeight` gives silence tokens weight 0, so the non-silence
weight equals the full weight total. -/
theorem nsWeight_tokensWithWeight (s : String) :
    nsWeight (tokensWithWeight s) = sumWeights (tokensWithWeight s) := by
  rw [sumWeights_eq_sum]
  unfold nsWeight
  apply congrArg
  apply List.map_congr_left
  intro t htmem
  obtain ⟨u, _, rfl⟩ := List.mem_map.1 htmem
  by_cases h : jsTrim u = ""
  · rw [if_pos h]
    simp
  · rw [if_neg h]
    simp

/-- `blockSegments` unfolded. -/
theorem blockSegments_eq (b : SentenceBlock) :
    blockSegments b = distributeTokens ((sumWeights (tokensWithWeight b.text) : ℚ))
      b.duration (tokensWithWeight b.text) b.startTime := rfl

/-- One block's non-silence segment durations total at most the block
duration. -/
theorem blockSegments_sum_le (b : SentenceBlock) (hb : 0 ≤ b.duration) :
    nonSilenceSum (blockSegments b) ≤ b.duration := by
  rw [blockSegments_eq, distributeTokens_nonSilenceSum, nsWeight_tokensWithWeight]
  by_cases h0 : sumWeights (tokensWithWeight b.text) = 0
  · rw [h0]
    simpa using hb
  · have hne : ((sumWeights (tokensWithWeight b.text) : ℚ)) ≠ 0 := by
      exact_mod_cast h0
    rw [div_self hne, one_mul]

/-- The sentence/boundary reconciliation loop, over any sorted positive
boundary list bounded by the page duration: every block starts in
`[anchor, dur]` with duration at least the 0.1 s clamp; block start times
are non-decreasing; the durations total at most the remaining span plus
one clamp per sentence; and once the boundaries are exhausted, the final
block's duration is the remaining span clamped below at 0.1 s. -/
theorem buildBlocksAux_props (P : List ℚ) (dur : ℚ) (hdur : 0 ≤ dur)
    (hmem : ∀ j t, P.get? j = some t → 0 < t ∧ t ≤ dur)
    (hsort : List.Pairwise (· < ·) P) :
    ∀ (sentences : List String) (i : Nat) (anchor : ℚ),
      0 ≤ anchor → anchor ≤ dur →
      (∀ k, i ≤ k → anchor ≤ nextAnchorVal P dur k) →
      (∀ b ∈ buildBlocksAux P dur sentences i anchor,
        0 ≤ b.startTime ∧ b.startTime ≤ dur ∧ (1:ℚ)/10 ≤ b.duration ∧
          anchor ≤ b.startTime) ∧
      List.Chain' (· ≤ ·)
        ((buildBlocksAux P dur sentences i anchor).map SentenceBlock.startTime) ∧
      ((buildBlocksAux P dur sentences i anchor).map SentenceBlock.duration).sum
        ≤ (dur - anchor) + (sentences.length : ℚ) * (1/10) ∧
      (∀ b, (buildBlocksAux P dur sentences i anchor).getLast? = some b →
        P.length + 1 ≤ i + sentences.length →
        b.duration = max (dur - b.startTime) (1/10)) := by
  intro sentences
  induction sentences with
  | nil =>
    intro i anchor h0 h1 h2
    have hnil : buildBlocksAux P dur [] i anchor = [] := rfl
    refine ⟨fun b hb => absurd (hnil ▸ hb) (List.not_mem_nil b), ?_, ?_, ?_⟩
    · rw [hnil]
      simp
    · rw [hnil]
      simp only [List.map_nil, List.sum_nil, List.length_nil, Nat.cast_zero,
        zero_mul, add_zero]
      linarith
    · intro b hb
      rw [hnil] at hb
      simp at hb
  | cons s rest ih =>
    intro i anchor h0 h1 h2
    rw [buildBlocksAux_cons]
    have hna_anchor : anchor ≤ nextAnchorVal P dur i := h2 i (le_refl i)
    have hna_nonneg : 0 ≤ nextAnchorVal P dur i :=
      nextAnchorVal_nonneg P dur hdur hmem i
    have hna_le : nextAnchorVal P dur i ≤ dur := nextAnchorVal_le_dur P dur hmem i
    have hnext : ∀ k, i + 1 ≤ k → nextAnchorVal P dur i ≤ nextAnchorVal P dur k :=
      fun k hk => nextAnchorVal_mono P dur hmem hsort i k (by omega)
    obtain ⟨iha, ihb, ihc, ihd⟩ := ih (i+1) (nextAnchorVal P dur i) hna_nonneg hna_le hnext
    refine ⟨?_, ?_, ?_, ?_⟩
    · intro b hb
      rcases List.mem_cons.1 hb with rfl | htail
      · exact ⟨h0, h1, le_max_right _ _, le_refl _⟩
      · obtain ⟨q0, q1, q2, q3⟩ := iha b htail
        exact ⟨q0, q1, q2, le_trans hna_anchor q3⟩
    · rw [List.map_cons]
      refine List.chain'_cons'.2 ⟨?_, ihb⟩
      intro y hy
      have hy' := List.mem_of_mem_head? hy
      obtain ⟨b, hbmem, hfeq⟩ := List.mem_map.1 hy'
      show anchor ≤ y
      rw [← hfeq]
      exact le_trans hna_anchor (iha b hbmem).2.2.2
    · rw [List.map_cons, List.sum_cons]
      show max (if nextAnchorVal P dur i - anchor ≤ 0 ∧ rest = []
          then dur - anchor else nextAnchorVal P dur i - anchor) (1/10)
          + ((buildBlocksAux P dur rest (i+1) (nextAnchorVal P dur i)).map
              SentenceBlock.duration).sum
        ≤ (dur - anchor) + ((s :: rest).length : ℚ) * (1/10)
      have hlen : ((s :: rest).length : ℚ) = (rest.length : ℚ) + 1 := by
        push_cast [List.length_cons]
        ring
      rw [hlen]
      by_cases hcond : nextAnchorVal P dur i - anchor ≤ 0 ∧ rest = []
      · rw [if_pos hcond]
        rw [hcond.2] at ihc ⊢
        have hnil : buildBlocksAux P dur [] (i+1) (nextAnchorVal P dur i) = [] := rfl
        rw [hnil]
        simp only [List.map_nil, List.sum_nil, List.length_nil, Nat.cast_zero,
          add_zero]
        have hm : max (dur - anchor) (1/10 : ℚ) ≤ (dur - anchor) + 1/10 := by
          apply max_le <;> linarith
        linarith
      · rw [if_neg hcond]
        have hm : max (nextAnchorVal P dur i - anchor) (1/10 : ℚ)
            ≤ (nextAnchorVal P dur i - anchor) + 1/10 := by
          apply max_le <;> linarith
        linarith
    · intro b hb hP
      cases rest with
      | nil =>
        rw [show buildBlocksAux P dur ([] : List String) (i + 1)
          (nextAnchorVal P dur i) = [] from rfl] at hb
        rw [List.getLast?_singleton] at hb
        obtain rfl := Option.some.inj hb
        have hgn : P.get? i = none := by
          rw [List.get?_eq_none]
          simp only [List.length_cons, List.length_nil] at hP
          omega
        have hna_eq : nextAnchorVal P dur i = dur := nextAnchorVal_of_none P dur i hgn
        show max (if nextAnchorVal P dur i - anchor ≤ 0 ∧ ([] : List String) = []
            then dur - anchor else nextAnchorVal P dur i - anchor) (1/10)
          = max (dur - anchor) (1/10)
        rw [hna_eq, ite_self]
      | cons s2 rest2 =>
        have hne : buildBlocksAux P dur (s2 :: rest2) (i+1) (nextAnchorVal P dur i) ≠ [] := by
          rw [buildBlocksAux_cons]
          exact List.cons_ne_nil _ _
        obtain ⟨x, xs, hxeq⟩ := List.exists_cons_of_ne_nil hne
        rw [hxeq, List.getLast?_cons_cons, ← hxeq] at hb
        apply ihd b hb
        simp only [List.length_cons] at hP ⊢
        omega

/-- Unfolding equation for `distributeTokens` on nil. -/
theorem distributeTokens_nil (total blockDur intra : ℚ) :
    distributeTokens total blockDur [] intra = [] := rfl

/-- `buildBlocks` unfolded. -/
theorem buildBlocks_eq (sentences : List String) (P : List ℚ) (dur : ℚ) :
    buildBlocks sentences P dur = buildBlocksAux P dur sentences 0 0 := rfl

/-- `reconstructPage` unfolded. -/
theorem reconstructPage_eq (sentences : List String) (samples : List Int) :
    reconstructPage sentences samples =
      (buildBlocks sentences (detectPauses samples) (totalDuration samples)).flatMap
        blockSegments := rfl

/-- Non-silence totals add over concatenation. -/
theorem nonSilenceSum_append (l1 l2 : List AudioSegment) :
    nonSilenceSum (l1 ++ l2) = nonSilenceSum l1 + nonSilenceSum l2 := by
  unfold nonSilenceSum
  rw [List.filter_append, List.map_append, List.sum_append]

/-- The page's non-silence total is the sum of the per-block totals. -/
theorem nonSilenceSum_flatMap (blocks : List SentenceBlock) :
    nonSilenceSum (blocks.flatMap blockSegments)
      = (blocks.map fun b => nonSilenceSum (blockSegments b)).sum := by
  induction blocks with
  | nil => simp [nonSilenceSum]
  | cons b rest ih =>
    rw [List.flatMap_cons, nonSilenceSum_append, List.map_cons, List.sum_cons, ih]

/-- C7: Audio-Timing Reconstruction invariants, as they actually hold.
All segment durations are nonnegative; the block start times are
non-decreasing and within each block the segment start times are
non-decreasing (the flattened sequence can decrease at a block join);
the non-silence durations total at most the page duration plus one 0.1 s
clamp per sentence (not the page duration itself); and when fewer
silence boundaries are detected than there are sentences, the last block
is given the remaining span `duration - startTime` clamped below at
0.1 s (so it can exceed the remainder). -/
theorem reconstructPage_claim (sentences : List String) (samples : List Int) :
    (∀ seg ∈ reconstructPage sentences samples, 0 ≤ seg.duration) ∧
    List.Chain' (· ≤ ·)
      ((buildBlocks sentences (detectPauses samples) (totalDuration samples)).map
        SentenceBlock.startTime) ∧
    (∀ b ∈ buildBlocks sentences (detectPauses samples) (totalDuration samples),
      List.Chain' (· ≤ ·) ((blockSegments b).map AudioSegment.startTime)) ∧
    nonSilenceSum (reconstructPage sentences samples)
      ≤ totalDuration samples + (sentences.length : ℚ) * (1/10) ∧
    ((detectPauses samples).length < sentences.length →
      ∀ b, (buildBlocks sentences (detectPauses samples)
          (totalDuration samples)).getLast? = some b →
        b.duration = max (totalDuration samples - b.startTime) (1/10)) := by
  obtain ⟨hmem, hsort⟩ := detectPauses_facts samples
  have hdur : 0 ≤ totalDuration samples := by
    unfold totalDuration
    positivity
  obtain ⟨ha, hbchain, hsum, hlast⟩ :=
    buildBlocksAux_props (detectPauses samples) (totalDuration samples) hdur hmem hsort
      sentences 0 0 (le_refl 0) hdur
      (fun k _ => nextAnchorVal_nonneg _ _ hdur hmem k)
  rw [buildBlocks_eq, reconstructPage_eq, buildBlocks_eq]
  refine ⟨?_, hbchain, ?_, ?_, ?_⟩
  · intro seg hseg
    obtain ⟨b, hbm, hsegmem⟩ := List.mem_flatMap.1 hseg
    rw [blockSegments_eq] at hsegmem
    exact distributeTokens_nonneg _ _ (Nat.cast_nonneg _)
      (le_trans (by norm_num) (ha b hbm).2.2.1) _ _ seg hsegmem
  · intro b hbm
    rw [blockSegments_eq]
    exact (distributeTokens_chain _ _ (Nat.cast_nonneg _)
      (le_trans (by norm_num) (ha b hbm).2.2.1) _ _).2
  · rw [nonSilenceSum_flatMap]
    have hstep : ((buildBlocksAux (detectPauses samples) (totalDuration samples)
        sentences 0 0).map fun b => nonSilenceSum (blockSegments b)).sum
        ≤ ((buildBlocksAux (detectPauses samples) (totalDuration samples)
        sentences 0 0).map SentenceBlock.duration).sum :=
      List.sum_le_sum fun b hbm =>
        blockSegments_sum_le b (le_trans (by norm_num) (ha b hbm).2.2.1)
    calc ((buildBlocksAux (detectPauses samples) (totalDuration samples)
          sentences 0 0).map fun b => nonSilenceSum (blockSegments b)).sum
        ≤ ((buildBlocksAux (detectPauses samples) (totalDuration samples)
          sentences 0 0).map SentenceBlock.duration).sum := hstep
      _ ≤ (totalDuration samples - 0) + (sentences.length : ℚ) * (1/10) := hsum
      _ = totalDuration samples + (sentences.length : ℚ) * (1/10) := by ring
  · intro hlt b hb
    exact hlast b hb (by omega)

/-- C7 as literally claimed is false: with an empty sample stream (page
duration 0) and sentences `"A. "`, `"B. "`, `"C."`, every block is
clamped to 0.1 s at anchor 0, so the flattened segment `startTime`
sequence `[0, 1/10, 0, 1/10, 0]` decreases at the block joins and the
non-silence durations total `3/10`, exceeding the page duration `0`. -/
theorem reconstructPage_counterexample :
    ¬ List.Chain' (· ≤ ·)
        ((reconstructPage ["A. ", "B. ", "C."] []).map AudioSegment.startTime) ∧
    ¬ (nonSilenceSum (reconstructPage ["A. ", "B. ", "C."] [])
        ≤ totalDuration ([] : List Int)) := by
  have h2 : totalDuration ([] : List Int) = 0 := by
    simp [totalDuration]
  have hna : ∀ k, nextAnchorVal ([] : List ℚ) 0 k = 0 :=
    fun k => nextAnchorVal_of_none _ _ _ rfl
  have hblocks : buildBlocks ["A. ", "B. ", "C."] [] 0 =
      [⟨"A. ", 0, 1/10⟩, ⟨"B. ", 0, 1/10⟩, ⟨"C.", 0, 1/10⟩] := by
    rw [buildBlocks_eq, buildBlocksAux_cons, buildBlocksAux_cons, buildBlocksAux_cons]
    rw [hna 0, hna 1, hna 2,
      show buildBlocksAux ([] : List ℚ) 0 ([] : List String) 3 0 = [] from rfl]
    norm_num [max_def]
  have hrp : reconstructPage ["A. ", "B. ", "C."] [] =
      (buildBlocks ["A. ", "B. ", "C."] [] 0).flatMap blockSegments := by
    rw [reconstructPage_eq, show detectPauses ([] : List Int) = [] from rfl, h2]
  have htokA : tokensWithWeight "A. " = [⟨"A.", 7, false⟩, ⟨" ", 0, true⟩] := by
    decide
  have htokB : tokensWithWeight "B. " = [⟨"B.", 7, false⟩, ⟨" ", 0, true⟩] := by
    decide
  have htokC : tokensWithWeight "C." = [⟨"C.", 7, false⟩] := by
    decide
  have hsegA : blockSegments ⟨"A. ", 0, 1/10⟩ =
      [⟨"A.", 0, 1/10, false⟩, ⟨" ", 1/10, 0, true⟩] := by
    rw [blockSegments_eq]
    show distributeTokens ((sumWeights (tokensWithWeight "A. ") : ℚ)) (1/10)
      (tokensWithWeight "A. ") 0 = _
    rw [htokA]
    rw [show sumWeights [(⟨"A.", 7, false⟩ : TokenW), ⟨" ", 0, true⟩] = 7 from by decide]
    simp only [distributeTokens_cons, distributeTokens_nil]
    norm_num
  have hsegB : blockSegments ⟨"B. ", 0, 1/10⟩ =
      [⟨"B.", 0, 1/10, false⟩, ⟨" ", 1/10, 0, true⟩] := by
    rw [blockSegments_eq]
    show distributeTokens ((sumWeights (tokensWithWeight "B. ") : ℚ)) (1/10)
      (tokensWithWeight "B. ") 0 = _
    rw [htokB]
    rw [show sumWeights [(⟨"B.", 7, false⟩ : TokenW), ⟨" ", 0, true⟩] = 7 from by decide]
    simp only [distributeTokens_cons, distributeTokens_nil]
    norm_num
  have hsegC : blockSegments ⟨"C.", 0, 1/10⟩ = [⟨"C.", 0, 1/10, false⟩] := by
    rw [blockSegments_eq]
    show distributeTokens ((sumWeights (tokensWithWeight "C.") : ℚ)) (1/10)
      (tokensWithWeight "C.") 0 = _
    rw [htokC]
    rw [show sumWeights [(⟨"C.", 7, false⟩ : TokenW)] = 7 from by decide]
    simp only [distributeTokens_cons, distributeTokens_nil]
    norm_num
  have hsegs : reconstructPage ["A. ", "B. ", "C."] [] =
      [⟨"A.", 0, 1/10, false⟩, ⟨" ", 1/10, 0, true⟩,
       ⟨"B.", 0, 1/10, false⟩, ⟨" ", 1/10, 0, true⟩,
       ⟨"C.", 0, 1/10, false⟩] := by
    rw [hrp, hblocks]
    rw [List.flatMap_cons, List.flatMap_cons, List.flatMap_cons, List.flatMap_nil]
    rw [hsegA, hsegB, hsegC]
    rfl
  constructor
  · intro hchain
    rw [hsegs] at hchain
    simp only [List.map_cons, List.map_nil] at hchain
    norm_num [List.chain'_cons, List.chain'_singleton] at hchain
  · intro hsum
    rw [hsegs, h2] at hsum
    simp only [nonSilenceSum_cons] at hsum
    norm_num [nonSilenceSum] at hsum

/-- Concrete run of the amended C7 invariants: one sentence and an empty
sample stream (no boundaries detected, fewer than the sentence count);
the single final block's duration is the clamped remaining span. -/
theorem reconstructPage_claim_witness :
    (detectPauses ([] : List Int)).length < (["Hi."] : List String).length ∧
    (∀ b, (buildBlocks ["Hi."] (detectPauses [])
        (totalDuration [])).getLast? = some b →
      b.duration = max (totalDuration ([] : List Int) - b.startTime) (1/10)) := by
  have hlt : (detectPauses ([] : List Int)).length < (["Hi."] : List String).length := by
    rw [show detectPauses ([] : List Int) = [] from rfl]
    decide
  exact ⟨hlt, (reconstructPage_claim ["Hi."] []).2.2.2.2 hlt⟩

end Narrator
